import Mathlib

/-!
Verification of the day-9 sweep-line geometry engine: the band decomposition
(`bands.rs`), the edge extraction (`main.rs`, `Problem::edges`) and the
visibility tracker (`part2.rs`, `for_each_contained_rectangle` / `part2`).

Machine integers (`u64`) are modelled as `Nat`; every Rust `assert!`/`panic!`
becomes an `Option`/step failure, and the two `binary_heap_plus` priority
queues are modelled as lists kept sorted ascending by the heap's key, so that
the heap's peek/pop of the minimal element is the list's head/tail.
-/

namespace Day9

/-- Point from edge.rs / main.rs: a `(row, col)` pair. -/
abbrev Point : Type := Nat × Nat

/-- Edge from edge.rs / main.rs: a `RangeInclusive<Point>`, with fields
`s` (Rust `start()`) and `e` (Rust `end()`). -/
structure Edge where
  s : Point
  e : Point
deriving DecidableEq, Repr, Inhabited

/-- Function edge_top from bands.rs: `min(e.start().0, e.end().0)`. -/
def edge_top (x : Edge) : Nat := min x.s.1 x.e.1

/-- Function edge_bottom from bands.rs: `max(e.start().0, e.end().0)`. -/
def edge_bottom (x : Edge) : Nat := max x.s.1 x.e.1

/-- Function edge_left from bands.rs: `min(e.start().1, e.end().1)`. -/
def edge_left (x : Edge) : Nat := min x.s.2 x.e.2

/-- Function edge_right from bands.rs: `max(e.start().1, e.end().1)`. -/
def edge_right (x : Edge) : Nat := max x.s.2 x.e.2

/-- Function is_vertical from bands.rs: `e.start().1 == e.end().1`. -/
def is_vertical (x : Edge) : Bool := x.s.2 == x.e.2

/-- Function goes_down from bands.rs: `e.start().0 < e.end().0`. -/
def goes_down (x : Edge) : Bool := decide (x.s.1 < x.e.1)

/-- Function are_connected from bands.rs: `a.start() == b.end() || b.start() == a.end()`. -/
def are_connected (a b : Edge) : Bool := a.s == b.e || b.s == a.e

/-- Comparator key of the `EdgeByBottom` heap (bands.rs): ascending by
`(edge_bottom, edge_left)` lexicographically, so the heap's pop order is
modelled by a list sorted with this `le` relation. -/
def leByBottom (a b : Edge) : Bool :=
  edge_bottom a < edge_bottom b ||
    (edge_bottom a == edge_bottom b && edge_left a ≤ edge_left b)

/-- Comparator key of the `EdgeByTop` heap (bands.rs): ascending by
`(edge_top, edge_left)` lexicographically. -/
def leByTop (a b : Edge) : Bool :=
  edge_top a < edge_top b ||
    (edge_top a == edge_top b && edge_left a ≤ edge_left b)

/-- Ordered insertion into a list sorted ascending by `le`; models a heap push. -/
def insertSorted (le : Edge → Edge → Bool) (x : Edge) : List Edge → List Edge
  | [] => [x]
  | y :: ys => if le x y then x :: y :: ys else y :: insertSorted le x ys

/-- Band from bands.rs: inclusive row interval `rows`, half-open column
intervals `runs`, and red-tile columns `reds` on the top row. -/
structure Band where
  rows : Nat × Nat
  runs : List (Nat × Nat)
  reds : List Nat
deriving DecidableEq, Repr

/-- State of BandIter from bands.rs: `next_row`, the `next` heap (edges
touching `next_row`, by bottom) and the `unreached` heap (by top). -/
structure BandState where
  next_row : Nat
  next : List Edge
  unreached : List Edge
deriving DecidableEq, Repr, Inhabited

/-- Edge validity asserted inside `BandIter::from_edges` (bands.rs lines
87-94): distinct endpoints and horizontal or vertical. -/
def validEdge (x : Edge) : Bool :=
  x.s != x.e && (x.s.1 == x.e.1 || x.s.2 == x.e.2)

/-- Helper for the connectivity check of `BandIter::from_edges`: starting
after a previous endpoint `prev`, the remaining edges chain together and the
last edge ends back at `first`. -/
def chainLoop (first : Point) : Point → List Edge → Bool
  | prev, [] => prev == first
  | prev, x :: xs => prev == x.s && chainLoop first x.e xs

/-- Connectivity and closure assertions of `BandIter::from_edges` (bands.rs
lines 95-102): consecutive edges share endpoints and the loop closes. -/
def isClosedChain : List Edge → Bool
  | [] => false
  | x :: xs => chainLoop x.s x.e xs

/-- Drain loop of bands.rs (from_edges lines 116-118 and next lines 401-407):
move every edge whose `edge_top` equals `row` from the `unreached` heap into
the `next` heap. -/
def drain (row : Nat) : List Edge → List Edge → List Edge × List Edge
  | nx, [] => (nx, [])
  | nx, u :: us =>
    if edge_top u == row then drain row (insertSorted leByBottom u nx) us
    else (nx, u :: us)

/-- Function BandIter::from_edges from bands.rs: validate the edges, seed the
`unreached` heap, pick the top row, and drain the first batch into `next`.
Returns `none` where the Rust code panics on a failed assertion. -/
def from_edges (es : List Edge) : Option BandState :=
  if es.all validEdge && decide (es.length > 1) && isClosedChain es then
    match es.foldl (fun acc x => insertSorted leByTop x acc) [] with
    | [] => none
    | top :: rest =>
      let row := edge_top top
      let (nx, un) := drain row [] (top :: rest)
      some ⟨row, nx, un⟩
  else none

/-- Red-tile contribution of one edge (bands.rs lines 175-190): a horizontal
edge must lie on `band_top` and contributes both endpoint columns; a vertical
edge touching `band_top` contributes its column once. -/
def redContrib (band_top : Nat) (x : Edge) : Option (List Nat) :=
  if x.s.1 == x.e.1 then
    if x.s.1 == band_top then some [x.s.2, x.e.2] else none
  else if x.s.1 == band_top || x.e.1 == band_top then some [x.s.2]
  else some []

/-- Raw red-tile columns for the band's top row, concatenated over the `next`
heap (bands.rs lines 172-191), before sorting and deduplication. -/
def redsRaw (band_top : Nat) : List Edge → Option (List Nat)
  | [] => some []
  | x :: xs =>
    match redContrib band_top x, redsRaw band_top xs with
    | some a, some b => some (a ++ b)
    | _, _ => none

/-- Ordered insertion of a natural number, used to model `reds.sort()`. -/
def insertNat (x : Nat) : List Nat → List Nat
  | [] => [x]
  | y :: ys => if x ≤ y then x :: y :: ys else y :: insertNat x ys

/-- Sorting model for `reds.sort()` (bands.rs line 192). -/
def sortNats (l : List Nat) : List Nat := l.foldr insertNat []

/-- Adjacent deduplication, modelling `Vec::dedup` (bands.rs line 198). -/
def dedupAdj : List Nat → List Nat
  | [] => []
  | [a] => [a]
  | a :: b :: rest =>
    if a == b then dedupAdj (b :: rest) else a :: dedupAdj (b :: rest)

/-- Sort comparator of the per-row scan (bands.rs lines 205-225): by left
column, then right column, then incoming-before-outgoing for connected edges. -/
def cmpScan (a b : Edge) : Ordering :=
  (compare (edge_left a) (edge_left b)).then
    ((compare (edge_right a) (edge_right b)).then
      (if a.e == b.s then .lt else if a.s == b.e then .gt else .eq))

/-- Stable insertion for `sortScan`, inserting before the first strictly
greater element, as a stable sort does. -/
def insertCmp (x : Edge) : List Edge → List Edge
  | [] => [x]
  | y :: ys => if cmpScan x y == .gt then y :: insertCmp x ys else x :: y :: ys

/-- Stable sort of the scan edges, modelling `edges.sort_by` (bands.rs line 205). -/
def sortScan (l : List Edge) : List Edge := l.foldr insertCmp []

/-- Function push_run from bands.rs: append a run, merging it into the last
run unless a gap separates them. -/
def push_run : List (Nat × Nat) → Nat × Nat → List (Nat × Nat)
  | [], nr => [nr]
  | [last], nr =>
    if last.2 < nr.1 then [last, nr] else [(last.1, max last.2 nr.2)]
  | r :: rest, nr => r :: push_run rest nr

/-- State enum of the per-row automaton (bands.rs lines 229-243). -/
inductive ScanState where
  | Outside : ScanState
  | Inside (entry : Edge) (dangling : Option Edge) : ScanState
deriving DecidableEq, Repr

/-- Accumulator of the per-row scan: automaton state, runs built so far, and
the `includes_bottom_edge` flag. -/
structure ScanAcc where
  state : ScanState
  runs : List (Nat × Nat)
  includes_bottom_edge : Bool
deriving DecidableEq, Repr

/-- One transition of the per-row automaton (bands.rs lines 261-371),
returning `none` where the Rust code panics or fails an assertion. -/
def scanStep (band_top : Nat) (acc : ScanAcc) (x : Edge) : Option ScanAcc :=
  if is_vertical x then
    match acc.state with
    | .Outside =>
      let dangling := if x.s.1 == band_top || x.e.1 == band_top then some x else none
      some { acc with state := .Inside x dangling }
    | .Inside entry none =>
      if are_connected x entry then
        if is_vertical x == is_vertical entry then
          some { acc with state := .Inside entry none }
        else none
      else if x.s.1 == band_top || x.e.1 == band_top then
        some { acc with state := .Inside entry (some x) }
      else
        some { acc with
                state := .Outside
                runs := push_run acc.runs (entry.s.2, x.s.2 + 1) }
    | .Inside entry (some dangling) =>
      if are_connected x dangling then
        if goes_down x == goes_down entry then
          some { acc with state := .Inside entry none }
        else
          some { acc with
                  state := .Outside
                  runs := push_run acc.runs (entry.s.2, x.s.2 + 1) }
      else none
  else
    match acc.state with
    | .Outside => none
    | .Inside _ none => none
    | .Inside entry (some dangling) =>
      if are_connected x dangling then
        let flag :=
          if dangling == entry then edge_bottom dangling == band_top
          else if is_vertical dangling then edge_top dangling == band_top
          else false
        some { state := .Inside entry (some x)
               runs := acc.runs
               includes_bottom_edge := acc.includes_bottom_edge || flag }
      else none

/-- Whole per-row scan (bands.rs lines 247-372): fold the automaton over the
sorted edges and require the final state to be `Outside`. -/
def scanEdges (band_top : Nat) (edges : List Edge) : Option (List (Nat × Nat) × Bool) := do
  let acc ← edges.foldlM (scanStep band_top) ⟨.Outside, [], false⟩
  match acc.state with
  | .Outside => some (acc.runs, acc.includes_bottom_edge)
  | _ => none

/-- Pop loop of bands.rs lines 374-382: drop from `next` every edge whose
bottom equals `band_top`, failing if an edge's bottom lies above `band_top`. -/
def popDone (band_top : Nat) : List Edge → Option (List Edge)
  | [] => some []
  | x :: xs =>
    if edge_bottom x < band_top then none
    else if edge_bottom x == band_top then popDone band_top xs
    else some (x :: xs)

/-- The `band_bottom` computation of bands.rs lines 384-396: single-row band
when `includes_bottom_edge` was set, otherwise one less than the nearest
remaining event in the two heaps, or `band_top` when both are exhausted. -/
def bandBottomOf (band_top : Nat) (flag : Bool) (nx un : List Edge) : Nat :=
  if flag then band_top
  else match nx, un with
    | [], [] => band_top
    | x :: _, [] => edge_bottom x - 1
    | [], u :: _ => edge_top u - 1
    | x :: _, u :: _ => min (edge_bottom x) (edge_top u) - 1

/-- Result of one `BandIter::next` call: end of iteration, a panic, or a
yielded band with the successor state. -/
inductive Step where
  | done : Step
  | err : Step
  | yield (b : Band) (st : BandState) : Step
deriving DecidableEq, Repr

/-- Function BandIter::next from bands.rs (lines 153-412): build `reds`, run
the per-row scan, pop finished edges, choose `band_bottom`, advance
`next_row`, drain newly reached edges, and yield the band. -/
def nextBand (st : BandState) : Step :=
  if st.next.isEmpty then .done
  else
    let band_top := st.next_row
    match redsRaw band_top st.next with
    | none => .err
    | some raw =>
      let sorted := sortNats raw
      let reds := dedupAdj sorted
      if reds.length * 2 == sorted.length then
        match scanEdges band_top (sortScan st.next) with
        | none => .err
        | some (runs, flag) =>
          match popDone band_top st.next with
          | none => .err
          | some nx1 =>
            let band_bottom := bandBottomOf band_top flag nx1 st.unreached
            if band_top ≤ band_bottom then
              let (nx2, un2) := drain (band_bottom + 1) nx1 st.unreached
              .yield ⟨(band_top, band_bottom), runs, reds⟩ ⟨band_bottom + 1, nx2, un2⟩
            else .err
      else .err

/-- Outcome of iterating `BandIter` to completion with a fuel bound:
normal exhaustion with the bands yielded and the final state, a panic,
or fuel running out. -/
inductive RunOut where
  | ok (bands : List Band) (final : BandState) : RunOut
  | err : RunOut
  | out : RunOut
deriving DecidableEq, Repr

/-- Iterate `nextBand` at most `fuel` times, collecting the yielded bands. -/
def runBands : Nat → BandState → RunOut
  | 0, st => if st.next.isEmpty then .ok [] st else .out
  | fuel + 1, st =>
    match nextBand st with
    | .done => .ok [] st
    | .err => .err
    | .yield b st' =>
      match runBands fuel st' with
      | .ok bs f => .ok (b :: bs) f
      | r => r

/-- Largest `edge_bottom` in a list of edges. -/
def maxBottomList (l : List Edge) : Nat :=
  l.foldr (fun x m => max (edge_bottom x) m) 0

/-- Fuel bound sufficient to drive any band iteration to completion. -/
def stBound (st : BandState) : Nat :=
  maxBottomList (st.next ++ st.unreached) + 2

/-! Edge extraction of `Problem::edges` (main.rs lines 36-49). -/

/-- Edge validity asserted inside `Problem::edges` (main.rs lines 45-48):
`is_horizontal(edge) || is_vertical(edge)`, each of which also requires the
endpoints to differ, plus the (redundant) distinctness assertion. -/
def hv_ok (x : Edge) : Bool :=
  ((x.s.1 == x.e.1 && x.s.2 != x.e.2) || (x.s.1 != x.e.1 && x.s.2 == x.e.2))
    && x.s != x.e

/-- Adjacent pairs of the vertex list, modelling `red.windows(2)`. -/
def windowPairs : List Point → List Edge
  | a :: b :: rest => ⟨a, b⟩ :: windowPairs (b :: rest)
  | _ => []

/-- Function Problem::edges from main.rs: consecutive vertex pairs plus the
closing edge from the last vertex back to the first, failing (as the Rust
asserts/unwrap panic) on an empty list or a degenerate or diagonal edge. -/
def problemEdges (red : List Point) : Option (List Edge) :=
  match red.getLast?, red.head? with
  | some lastv, some first =>
    let es := windowPairs red ++ [⟨lastv, first⟩]
    if es.all hv_ok then some es else none
  | _, _ => none

/-- Reference definition, following the spec's words for the edge model: the
cyclic edge sequence pairing each vertex with its cyclic successor. -/
def cyclicEdges (red : List Point) : List Edge :=
  (red.zip (red.rotate 1)).map (fun pq => ⟨pq.1, pq.2⟩)

/-- A cyclically adjacent vertex pair is bad when the two vertices are equal
or differ in both coordinates (spec's `MalformedPolygon` conditions). -/
def badPair (p q : Point) : Bool := p == q || (p.1 != q.1 && p.2 != q.2)

/-! Visibility tracker of part2.rs. -/

/-- ActiveRed from part2.rs: a red tile with its visible column range. -/
structure ActiveRed where
  red : Point
  visible : Nat × Nat
deriving DecidableEq, Repr

/-- Function intersection from part2.rs: intersect two half-open ranges,
returning `none` when the result is empty. -/
def intersectRun (a b : Nat × Nat) : Option (Nat × Nat) :=
  let c : Nat × Nat := (max a.1 b.1, min a.2 b.2)
  if c.1 < c.2 then some c else none

/-- Range membership, modelling `Range::contains`. -/
def runContains (r : Nat × Nat) (c : Nat) : Bool := r.1 ≤ c && decide (c < r.2)

/-- One iteration of the `retain_mut` cull closure (part2.rs lines 33-72):
drop runs entirely left of the tile's column, then keep the tile only if the
front run contains its column and intersects its visible range; returns the
remaining runs (threaded across tiles) and the retained tile, if any. -/
def cullOne (runs : List (Nat × Nat)) (a : ActiveRed) :
    List (Nat × Nat) × Option ActiveRed :=
  match runs with
  | [] => ([], none)
  | front :: rest =>
    if a.red.2 < front.2 then
      if front.1 ≤ a.red.2 then
        match intersectRun a.visible front with
        | some remaining => (front :: rest, some { a with visible := remaining })
        | none => (front :: rest, none)
      else (front :: rest, none)
    else cullOne rest a

/-- The cull pass of part2.rs lines 32-72: `retain_mut` over the active list,
threading the remaining runs left to right. -/
def cull (runs : List (Nat × Nat)) : List ActiveRed → List ActiveRed
  | [] => []
  | a :: rest =>
    match cullOne runs a with
    | (runs', some a') => a' :: cull runs' rest
    | (runs', none) => cull runs' rest

/-- Reference treatment of one vertex, following the spec's words for the
cull step: the vertex survives exactly when some run of the band contains
its column and its visible interval meets that run, in which case its
visible interval becomes the intersection. -/
def cullVertex (runs : List (Nat × Nat)) (a : ActiveRed) : Option ActiveRed :=
  match runs.find? (fun r => runContains r a.red.2) with
  | none => none
  | some r =>
    match intersectRun a.visible r with
    | none => none
    | some remaining => some { a with visible := remaining }

/-- Reference definition, following the spec's words for the cull step,
applied independently to every carried-over vertex. -/
def cullSpec (runs : List (Nat × Nat)) (actives : List ActiveRed) : List ActiveRed :=
  actives.filterMap (cullVertex runs)

/-- Search for the run containing one new red tile (part2.rs lines 79-112),
dropping runs to its left; `none` models the two `unreachable!` panics. -/
def absorbOne (band_top : Nat) : List (Nat × Nat) → Nat →
    Option (List (Nat × Nat) × ActiveRed)
  | [], _ => none
  | front :: rest, red =>
    if red < front.1 then none
    else if runContains front red then
      some (front :: rest, ⟨(band_top, red), front⟩)
    else absorbOne band_top rest red

/-- The absorb pass of part2.rs lines 76-113: build a new active tile for
each red column, with the containing run as its initial visible range. -/
def absorb (band_top : Nat) : List (Nat × Nat) → List Nat → Option (List ActiveRed)
  | _, [] => some []
  | runs, red :: rest =>
    match absorbOne band_top runs red with
    | none => none
    | some (runs', a) =>
      match absorb band_top runs' rest with
      | none => none
      | some others => some (a :: others)

/-- Inner loop of the old-against-new emission (part2.rs lines 120-133),
including the one-sided visibility assertion; emits the pair when the old
tile's visible range contains the new tile's column. -/
def oldNewOne (a : ActiveRed) : List ActiveRed → Option (List (Point × Point))
  | [] => some []
  | b :: rest =>
    if runContains a.visible b.red.2 && ! runContains b.visible a.red.2 then none
    else
      match oldNewOne a rest with
      | none => none
      | some more =>
        some (if runContains a.visible b.red.2 then (a.red, b.red) :: more else more)

/-- Old-against-new rectangle emission (part2.rs lines 120-133). -/
def oldNewPairs : List ActiveRed → List ActiveRed → Option (List (Point × Point))
  | [], _ => some []
  | a :: olds, nw =>
    match oldNewOne a nw with
    | none => none
    | some first =>
      match oldNewPairs olds nw with
      | none => none
      | some rest => some (first ++ rest)

/-- Inner loop of the new-against-new emission (part2.rs lines 136-148),
including the mutual-visibility assertion. -/
def newNewOne (a : ActiveRed) : List ActiveRed → Option (List (Point × Point))
  | [] => some []
  | b :: rest =>
    if runContains a.visible b.red.2 != runContains b.visible a.red.2 then none
    else
      match newNewOne a rest with
      | none => none
      | some more =>
        some (if runContains a.visible b.red.2 then (a.red, b.red) :: more else more)

/-- New-against-new rectangle emission over the suffixes of the new list
(part2.rs lines 136-148). -/
def newNewPairs : List ActiveRed → Option (List (Point × Point))
  | [] => some []
  | a :: rest =>
    match newNewOne a rest with
    | none => none
    | some first =>
      match newNewPairs rest with
      | none => none
      | some more => some (first ++ more)

/-- Stable ordered insertion by red-tile column, modelling the stable
`sort_by_key` of part2.rs line 152. -/
def insertByCol (x : ActiveRed) : List ActiveRed → List ActiveRed
  | [] => [x]
  | y :: ys => if x.red.2 ≤ y.red.2 then x :: y :: ys else y :: insertByCol x ys

/-- Stable sort of the active list by column (part2.rs line 152). -/
def sortByCol (l : List ActiveRed) : List ActiveRed := l.foldr insertByCol []

/-- Process one band inside `for_each_contained_rectangle` (part2.rs lines
27-153): cull the carried-over actives, absorb the new reds, emit candidate
pairs, and merge. Returns the pairs emitted for this band and the new active
list. -/
def processBand (active : List ActiveRed) (b : Band) :
    Option (List (Point × Point) × List ActiveRed) :=
  let culled := cull b.runs active
  match absorb b.rows.1 b.runs b.reds with
  | none => none
  | some nw =>
    match oldNewPairs culled nw with
    | none => none
    | some p1 =>
      match newNewPairs nw with
      | none => none
      | some p2 => some (p1 ++ p2, sortByCol (culled ++ nw))

/-- Fold `processBand` over a band list, concatenating the emitted pairs. -/
def runTracker : List ActiveRed → List Band → Option (List (Point × Point))
  | _, [] => some []
  | active, b :: bs =>
    match processBand active b with
    | none => none
    | some (ps, active') =>
      match runTracker active' bs with
      | none => none
      | some more => some (ps ++ more)

/-- Function for_each_contained_rectangle from part2.rs, composed with the
edge extraction and band decomposition it drives: the full list of emitted
rectangle-corner pairs for a vertex list. -/
def rectanglePairs (red : List Point) : Option (List (Point × Point)) :=
  match problemEdges red with
  | none => none
  | some es =>
    match from_edges es with
    | none => none
    | some st =>
      match runBands (stBound st) st with
      | .ok bands _ => runTracker [] bands
      | _ => none

/-- Function area from part2.rs: inclusive bounding-box area of two points. -/
def area (a b : Point) : Nat :=
  (max a.1 b.1 - min a.1 b.1 + 1) * (max a.2 b.2 - min a.2 b.2 + 1)

/-- Function part2 from part2.rs: reduce the emitted pairs to the maximum
area, starting from the accumulator value 1. -/
def part2 (red : List Point) : Option Nat :=
  (rectanglePairs red).map
    (fun ps => ps.foldl (fun acc pq => if area pq.1 pq.2 > acc then area pq.1 pq.2 else acc) 1)

/-- Two emitted corner pairs name the same unordered pair of vertex
positions, either in the same order or swapped. -/
def samePair (p q : Point × Point) : Prop :=
  (p.1 = q.1 ∧ p.2 = q.2) ∨ (p.1 = q.2 ∧ p.2 = q.1)

instance (p q : Point × Point) : Decidable (samePair p q) :=
  if h : (p.1 = q.1 ∧ p.2 = q.2) ∨ (p.1 = q.2 ∧ p.2 = q.1) then .isTrue h
  else .isFalse h

/-! Concrete inputs used by the witnesses below, taken from the repository's
own unit tests. -/

/-- The square test shape, from the `square_simple` test of bands.rs. -/
def sqVertices : List Point := [(12,10),(12,20),(22,20),(22,10)]

/-- Edges of the square test shape. -/
def sqEdges : List Edge :=
  [⟨(12,10),(12,20)⟩, ⟨(12,20),(22,20)⟩, ⟨(22,20),(22,10)⟩, ⟨(22,10),(12,10)⟩]

/-- The degenerate horizontal line of the ignored `horizontal_line` test. -/
def hLineEdges : List Edge := [⟨(12,10),(12,20)⟩, ⟨(12,20),(12,10)⟩]

/-- A degenerate vertical line from row `r1` to row `r2` at column `c`
(the `vertical_line` test shape, generalised). -/
def vLineEdges (r1 r2 c : Nat) : List Edge := [⟨(r1,c),(r2,c)⟩, ⟨(r2,c),(r1,c)⟩]

/-- Sweep invariant of the band iterator relative to the original edge list:
both heaps are sorted by their keys, every edge in `next` touches `next_row`,
every edge in `unreached` starts strictly below it, and the edges already
popped all ended strictly above it. -/
def InvFor (es : List Edge) (st : BandState) : Prop :=
  st.next.Pairwise (fun a b => leByBottom a b = true) ∧
  st.unreached.Pairwise (fun a b => leByTop a b = true) ∧
  (∀ e ∈ st.next, edge_top e ≤ st.next_row ∧ st.next_row ≤ edge_bottom e) ∧
  (∀ e ∈ st.unreached, st.next_row < edge_top e) ∧
  ∃ popped, es.Perm (popped ++ st.next ++ st.unreached) ∧
    ∀ e ∈ popped, edge_bottom e < st.next_row

/-- Row bookkeeping of a band sequence: starting at row `r`, each band opens
at the current row, closes no earlier, and the next band opens on the
following row; `r2` is the row after the last band. -/
def bandsChain : Nat → List Band → Nat → Prop
  | r, [], r2 => r = r2
  | r, b :: bs, r2 => b.rows.1 = r ∧ r ≤ b.rows.2 ∧ bandsChain (b.rows.2 + 1) bs r2

/-- Initial iterator state of the square test shape. -/
def sqState0 : BandState :=
  ⟨12, [⟨(12,10),(12,20)⟩, ⟨(22,10),(12,10)⟩, ⟨(12,20),(22,20)⟩], [⟨(22,20),(22,10)⟩]⟩

/-- First band of the square test shape. -/
def sqBand1 : Band := ⟨(12, 21), [(10, 21)], [10, 20]⟩

/-- Second band of the square test shape. -/
def sqBand2 : Band := ⟨(22, 22), [(10, 21)], [10, 20]⟩

/-- Iterator state of the square test shape after its first band. -/
def sqState1 : BandState :=
  ⟨22, [⟨(22,20),(22,10)⟩, ⟨(22,10),(12,10)⟩, ⟨(12,20),(22,20)⟩], []⟩

end Day9

namespace Day9

/-! Theorems. -/

lemma hv_ok_iff (x : Edge) : hv_ok x = true ↔ badPair x.s x.e = false := by
  rcases x with ⟨⟨r1, c1⟩, ⟨r2, c2⟩⟩
  simp [hv_ok, badPair, Prod.ext_iff]
  tauto

lemma hv_ok_false_iff (x : Edge) : hv_ok x = false ↔ badPair x.s x.e = true := by
  constructor
  · intro h
    cases hb : badPair x.s x.e with
    | true => rfl
    | false => exact absurd ((hv_ok_iff x).mpr hb) (by simp [h])
  · intro h
    cases hv : hv_ok x with
    | false => rfl
    | true =>
      have := (hv_ok_iff x).mp hv
      simp [h] at this

lemma windowPairs_closing (l : List Point) (a z lastv : Point)
    (h : (a :: l).getLast? = some lastv) :
    windowPairs (a :: l) ++ [⟨lastv, z⟩] =
      ((a :: l).zip (l ++ [z])).map (fun pq => Edge.mk pq.1 pq.2) := by
  induction l generalizing a with
  | nil => simp only [List.getLast?_singleton, Option.some.injEq] at h; simp [windowPairs, h]
  | cons b rest ih =>
    have h' : (b :: rest).getLast? = some lastv := by
      rwa [List.getLast?_cons_cons] at h
    simp only [windowPairs, List.zip_cons_cons, List.map_cons, List.cons_append]
    rw [← ih b h']

lemma cyclicEdges_cons (a : Point) (l : List Point) :
    cyclicEdges (a :: l) = ((a :: l).zip (l ++ [a])).map (fun pq => Edge.mk pq.1 pq.2) := by
  simp [cyclicEdges, List.rotate_cons_succ, List.rotate_zero]

lemma problemEdges_eq (a : Point) (l : List Point) :
    problemEdges (a :: l) =
      (if (cyclicEdges (a :: l)).all hv_ok then some (cyclicEdges (a :: l)) else none) := by
  obtain ⟨lastv, hl⟩ : ∃ lastv, (a :: l).getLast? = some lastv := by
    cases h : (a :: l).getLast? with
    | none => simp at h
    | some v => exact ⟨v, rfl⟩
  have hh : (a :: l).head? = some a := rfl
  have hkey := windowPairs_closing l a a lastv hl
  rw [problemEdges, hl, hh, cyclicEdges_cons, ← hkey]

/-- Claim C7: the edge extraction fails exactly when fewer than 2 vertices
are supplied or some cyclically consecutive pair of vertices is equal or
differs in both coordinates; on valid input it returns the cyclic edge
sequence, including the closing edge from the last vertex back to the first. -/
theorem problemEdges_characterisation (red : List Point) :
    (problemEdges red = none ↔
      red.length < 2 ∨ ∃ pq ∈ red.zip (red.rotate 1), badPair pq.1 pq.2 = true) ∧
    (∀ l, problemEdges red = some l → l = cyclicEdges red) := by
  constructor
  · cases red with
    | nil => simp [problemEdges]
    | cons a l =>
      rw [problemEdges_eq]
      rcases eq_or_ne l [] with rfl | hne
      · have hbad : hv_ok ⟨a, a⟩ = false := (hv_ok_false_iff _).mpr (by simp [badPair])
        simp [cyclicEdges, List.rotate_cons_succ, hbad]
      · have hlen : ¬ (a :: l).length < 2 := by
          cases l with
          | nil => exact absurd rfl hne
          | cons b m => simp
        simp only [hlen, false_or]
        split
        · rename_i htrue
          rw [cyclicEdges, List.all_eq_true] at htrue
          simp only [reduceCtorEq, false_iff, not_exists]
          intro pq
          intro hpq
          have hm := htrue _ (List.mem_map_of_mem _ hpq.1)
          rw [hv_ok_iff] at hm
          simp [hm] at hpq
        · rename_i hfalse
          have hfalse' : (cyclicEdges (a :: l)).all hv_ok = false :=
            Bool.not_eq_true _ ▸ (by simpa using hfalse)
          rw [cyclicEdges, List.all_eq_false] at hfalse'
          obtain ⟨x, hx, hvx⟩ := hfalse'
          obtain ⟨pq, hpq, rfl⟩ := List.mem_map.mp hx
          simp only [true_iff]
          refine ⟨pq, hpq, ?_⟩
          have := (hv_ok_false_iff (Edge.mk pq.1 pq.2)).mp (by simpa using hvx)
          exact this
  · intro l h
    cases red with
    | nil => simp [problemEdges] at h
    | cons a m =>
      rw [problemEdges_eq] at h
      split at h
      · exact (Option.some.inj h).symm
      · exact absurd h (by simp)

/-- Witness for C7: the characterisation applied to the square test shape,
whose extraction succeeds and equals the cyclic edge sequence. -/
theorem problemEdges_characterisation_witness :
    problemEdges sqVertices = some sqEdges ∧ sqEdges = cyclicEdges sqVertices := by
  refine ⟨by decide, ?_⟩
  exact (problemEdges_characterisation sqVertices).2 sqEdges (by decide)

/-! Claim C3: the cull pass of the visibility tracker. -/

lemma find?_append_of_none {P : Nat × Nat → Bool} (dropped runs : List (Nat × Nat))
    (h : ∀ r ∈ dropped, P r = false) :
    (dropped ++ runs).find? P = runs.find? P := by
  induction dropped with
  | nil => rfl
  | cons d ds ih =>
    rw [List.cons_append, List.find?_cons_of_neg, ih (fun r hr => h r (by simp [hr]))]
    simp [h d (by simp)]

lemma runContains_false_right (r : Nat × Nat) (c : Nat) (h : r.2 ≤ c) :
    runContains r c = false := by
  simp only [runContains]
  have hx : decide (c < r.2) = false := decide_eq_false (by omega)
  rw [hx, Bool.and_false]

lemma runContains_false_left (r : Nat × Nat) (c : Nat) (h : c < r.1) :
    runContains r c = false := by
  simp only [runContains]
  have hx : decide (r.1 ≤ c) = false := decide_eq_false (by omega)
  rw [hx, Bool.false_and]

lemma runContains_true (r : Nat × Nat) (c : Nat) (h1 : r.1 ≤ c) (h2 : c < r.2) :
    runContains r c = true := by
  simp [runContains, h1, h2]

lemma runContains_true_iff (r : Nat × Nat) (c : Nat) :
    runContains r c = true ↔ r.1 ≤ c ∧ c < r.2 := by
  simp [runContains]

lemma cullOne_spec (a : ActiveRed) :
    ∀ (runs dropped : List (Nat × Nat)),
      (dropped ++ runs).Pairwise (fun r1 r2 => r1.2 ≤ r2.1) →
      (∀ r ∈ dropped, r.2 ≤ a.red.2) →
      ((cullOne runs a).2 = cullVertex (dropped ++ runs) a) ∧
        ∃ dropped2, dropped ++ runs = dropped2 ++ (cullOne runs a).1 ∧
          ∀ r ∈ dropped2, r.2 ≤ a.red.2 := by
  intro runs
  induction runs with
  | nil =>
    intro dropped _ hd
    have hnone : dropped.find? (fun r => runContains r a.red.2) = none := by
      rw [List.find?_eq_none]
      intro r hr
      simp [runContains_false_right r a.red.2 (hd r hr)]
    refine ⟨?_, dropped, by simp [cullOne], hd⟩
    simp [cullOne, cullVertex, hnone]
  | cons front rest ih =>
    intro dropped hp hd
    by_cases h1 : a.red.2 < front.2
    · have hfind : (dropped ++ front :: rest).find? (fun r => runContains r a.red.2)
          = (front :: rest).find? (fun r => runContains r a.red.2) :=
        find?_append_of_none dropped _
          (fun r hr => runContains_false_right r a.red.2 (hd r hr))
      by_cases h2 : front.1 ≤ a.red.2
      · have hcont : runContains front a.red.2 = true := runContains_true _ _ h2 h1
        have hfront : (front :: rest).find? (fun r => runContains r a.red.2) = some front := by
          rw [List.find?_cons]
          simp [hcont]
        refine ⟨?_, dropped, ?_, hd⟩
        · rw [cullVertex, hfind, hfront]
          simp only [cullOne, if_pos h1, if_pos h2]
          cases intersectRun a.visible front <;> simp
        · simp only [cullOne, if_pos h1, if_pos h2]
          cases hi : intersectRun a.visible front <;> simp
      · have hcont : runContains front a.red.2 = false :=
          runContains_false_left _ _ (by omega)
        have hrest : rest.find? (fun r => runContains r a.red.2) = none := by
          rw [List.find?_eq_none]
          intro r hr
          have hdisj : front.2 ≤ r.1 := by
            have hseg := (List.pairwise_append.mp hp).2.1
            exact (List.pairwise_cons.mp hseg).1 r hr
          simp [runContains_false_left r a.red.2 (by omega)]
        have hfront : (front :: rest).find? (fun r => runContains r a.red.2) = none := by
          rw [List.find?_cons]
          simp [hcont, hrest]
        refine ⟨?_, dropped, ?_, hd⟩
        · rw [cullVertex, hfind, hfront]
          simp only [cullOne, if_pos h1, if_neg h2]
        · simp only [cullOne, if_pos h1, if_neg h2]
    · have hple : front.2 ≤ a.red.2 := by omega
      have hp' : ((dropped ++ [front]) ++ rest).Pairwise (fun r1 r2 => r1.2 ≤ r2.1) := by
        simpa using hp
      have hd' : ∀ r ∈ dropped ++ [front], r.2 ≤ a.red.2 := by
        intro r hr
        rcases List.mem_append.mp hr with h | h
        · exact hd r h
        · simp only [List.mem_singleton] at h
          subst h
          exact hple
      obtain ⟨heq1, dropped2, heq2, hd2⟩ := ih (dropped ++ [front]) hp' hd'
      have hassoc : dropped ++ front :: rest = (dropped ++ [front]) ++ rest := by simp
      have hc : cullOne (front :: rest) a = cullOne rest a := by
        simp only [cullOne, if_neg h1]
      rw [hc, hassoc]
      exact ⟨heq1, dropped2, heq2, hd2⟩

lemma cullOne_spec_pair (a : ActiveRed) (runs dropped runs2 : List (Nat × Nat))
    (res : Option ActiveRed)
    (hp : (dropped ++ runs).Pairwise (fun r1 r2 => r1.2 ≤ r2.1))
    (hd : ∀ r ∈ dropped, r.2 ≤ a.red.2)
    (hc : cullOne runs a = (runs2, res)) :
    res = cullVertex (dropped ++ runs) a ∧
      ∃ dropped2, dropped ++ runs = dropped2 ++ runs2 ∧
        ∀ r ∈ dropped2, r.2 ≤ a.red.2 := by
  obtain ⟨h1, dropped2, h2, h3⟩ := cullOne_spec a runs dropped hp hd
  rw [hc] at h1 h2
  exact ⟨h1, dropped2, h2, h3⟩

lemma cull_cons (runs : List (Nat × Nat)) (a : ActiveRed) (rest : List ActiveRed) :
    cull runs (a :: rest)
      = (match cullOne runs a with
         | (runs', some a') => a' :: cull runs' rest
         | (runs', none) => cull runs' rest) := rfl

lemma cull_eq_cullSpec_aux :
    ∀ (actives : List ActiveRed) (runs dropped : List (Nat × Nat)),
      (dropped ++ runs).Pairwise (fun r1 r2 => r1.2 ≤ r2.1) →
      (∀ r ∈ dropped, ∀ x ∈ actives, r.2 ≤ x.red.2) →
      actives.Pairwise (fun x y => x.red.2 ≤ y.red.2) →
      cull runs actives = cullSpec (dropped ++ runs) actives := by
  intro actives
  induction actives with
  | nil =>
    intro runs dropped _ _ _
    simp [cull, cullSpec]
  | cons a rest ih =>
    intro runs dropped hp hd hs
    rcases hc : cullOne runs a with ⟨runs2, res⟩
    obtain ⟨hres, dropped2, heq, hd2⟩ :=
      cullOne_spec_pair a runs dropped runs2 res hp (fun r hr => hd r hr a (by simp)) hc
    have hrest : ∀ r ∈ dropped2, ∀ x ∈ rest, r.2 ≤ x.red.2 := by
      intro r hr x hx
      exact le_trans (hd2 r hr) ((List.pairwise_cons.mp hs).1 x hx)
    have hp2 : (dropped2 ++ runs2).Pairwise (fun r1 r2 => r1.2 ≤ r2.1) := heq ▸ hp
    have hihs := ih runs2 dropped2 hp2 hrest (List.pairwise_cons.mp hs).2
    rw [← heq] at hihs
    rw [cull_cons, hc, cullSpec, List.filterMap_cons, ← hres]
    cases res with
    | none => exact hihs
    | some a2 => exact congrArg (a2 :: ·) hihs

/-- Claim C3: in the cull pass, an active vertex carried over from earlier
bands is dropped exactly when no run of the band contains its column or the
intersection of its visible interval with the containing run is empty;
otherwise it is retained with its visible interval set to that intersection
(the reference behaviour `cullSpec`), provided the band's runs are sorted
and disjoint and the active list is sorted by column. -/
theorem cull_matches_spec (runs : List (Nat × Nat)) (actives : List ActiveRed)
    (hruns : runs.Pairwise (fun r1 r2 => r1.2 ≤ r2.1))
    (hact : actives.Pairwise (fun x y => x.red.2 ≤ y.red.2)) :
    cull runs actives = cullSpec runs actives := by
  have := cull_eq_cullSpec_aux actives runs [] (by simpa using hruns)
    (by intro r hr; simp at hr) hact
  simpa using this

/-- Witness for C3: the cull pass equals its specification on the first two
bands of the u-shape test: two runs, two active vertices, one of which is
dropped. -/
theorem cull_matches_spec_witness :
    cull [(10, 41)] [⟨(10, 14), (10, 21)⟩, ⟨(10, 25), (23, 28)⟩]
      = cullSpec [(10, 41)] [⟨(10, 14), (10, 21)⟩, ⟨(10, 25), (23, 28)⟩] :=
  cull_matches_spec [(10, 41)] [⟨(10, 14), (10, 21)⟩, ⟨(10, 25), (23, 28)⟩]
    (by decide) (by decide)

/-! Claim C6: visibility among the new vertices of a single band. -/

lemma absorbOne_mem (t : Nat) :
    ∀ (runs : List (Nat × Nat)) (red : Nat) (runs2 : List (Nat × Nat)) (a : ActiveRed),
      absorbOne t runs red = some (runs2, a) →
      a.red = (t, red) ∧ a.visible ∈ runs ∧ runContains a.visible red = true ∧
        runs2 <:+ runs := by
  intro runs
  induction runs with
  | nil =>
    intro red runs2 a h
    simp [absorbOne] at h
  | cons front rest ih =>
    intro red runs2 a h
    by_cases h1 : red < front.1
    · simp [absorbOne, h1] at h
    · by_cases h2 : runContains front red = true
      · simp only [absorbOne, if_neg h1, if_pos h2, Option.some.injEq, Prod.mk.injEq] at h
        obtain ⟨hr, ha⟩ := h
        subst hr
        subst ha
        exact ⟨rfl, by simp, h2, List.suffix_refl _⟩
      · simp only [absorbOne, if_neg h1, if_neg h2] at h
        obtain ⟨ha, hv, hc, hs⟩ := ih red runs2 a h
        exact ⟨ha, List.mem_cons_of_mem _ hv, hc,
          hs.trans (List.suffix_cons front rest)⟩

lemma absorb_results (t : Nat) :
    ∀ (reds : List Nat) (runs : List (Nat × Nat)) (news : List ActiveRed),
      absorb t runs reds = some news →
      news.map (fun x => x.red) = reds.map (fun c => ((t, c) : Point)) ∧
        ∀ x ∈ news, x.visible ∈ runs ∧ runContains x.visible x.red.2 = true := by
  intro reds
  induction reds with
  | nil =>
    intro runs news h
    simp only [absorb, Option.some.injEq] at h
    subst h
    simp
  | cons red rest ih =>
    intro runs news h
    rw [absorb] at h
    cases ha : absorbOne t runs red with
    | none =>
      simp [ha] at h
    | some pr =>
      rcases pr with ⟨runs2, a⟩
      simp only [ha] at h
      cases ho : absorb t runs2 rest with
      | none =>
        simp [ho] at h
      | some others =>
        simp only [ho, Option.some.injEq] at h
        subst h
        obtain ⟨hared, hav, hac, hasuf⟩ := absorbOne_mem t runs red runs2 a ha
        obtain ⟨hmap, hrest⟩ := ih runs2 others ho
        refine ⟨?_, ?_⟩
        · simp only [List.map_cons, hmap, hared]
        · intro x hx
          rcases List.mem_cons.mp hx with rfl | hx
          · exact ⟨hav, hared ▸ hac⟩
          · obtain ⟨hv, hc⟩ := hrest x hx
            exact ⟨hasuf.subset hv, hc⟩

lemma run_unique (runs : List (Nat × Nat))
    (hdisj : runs.Pairwise (fun r1 r2 => r1.2 ≤ r2.1)) (c : Nat) :
    ∀ r1 ∈ runs, ∀ r2 ∈ runs,
      runContains r1 c = true → runContains r2 c = true → r1 = r2 := by
  have hsym : runs.Pairwise (fun r1 r2 => r1.2 ≤ r2.1 ∨ r2.2 ≤ r1.1) :=
    hdisj.imp (fun h => Or.inl h)
  intro r1 h1 r2 h2 hc1 hc2
  by_contra hne
  have := List.Pairwise.forall (fun a b h => h.symm) hsym h1 h2 hne
  rw [runContains_true_iff] at hc1 hc2
  rcases this with h | h <;> omega

lemma newNewOne_mem_iff (a : ActiveRed) :
    ∀ (rest : List ActiveRed) (ps : List (Point × Point)),
      newNewOne a rest = some ps →
      ∀ p, p ∈ ps ↔ ∃ b ∈ rest, p = (a.red, b.red) ∧
        runContains a.visible b.red.2 = true := by
  intro rest
  induction rest with
  | nil =>
    intro ps h p
    simp only [newNewOne, Option.some.injEq] at h
    subst h
    simp
  | cons b more ih =>
    intro ps h p
    rw [newNewOne] at h
    split at h
    · exact absurd h (by simp)
    · cases hm : newNewOne a more with
      | none => rw [hm] at h; exact absurd h (by simp)
      | some tail =>
        rw [hm] at h
        simp only [Option.some.injEq] at h
        subst h
        by_cases hv : runContains a.visible b.red.2 = true
        · rw [if_pos hv]
          constructor
          · intro hp
            rcases List.mem_cons.mp hp with rfl | hp
            · exact ⟨b, by simp, rfl, hv⟩
            · obtain ⟨b2, hb2, hpe, hv2⟩ := (ih tail hm p).mp hp
              exact ⟨b2, by simp [hb2], hpe, hv2⟩
          · rintro ⟨b2, hb2, rfl, hv2⟩
            rcases List.mem_cons.mp hb2 with rfl | hb2
            · simp
            · exact List.mem_cons_of_mem _ ((ih tail hm _).mpr ⟨b2, hb2, rfl, hv2⟩)
        · rw [if_neg hv]
          rw [ih tail hm p]
          constructor
          · rintro ⟨b2, hb2, rfl, hv2⟩
            exact ⟨b2, by simp [hb2], rfl, hv2⟩
          · rintro ⟨b2, hb2, rfl, hv2⟩
            rcases List.mem_cons.mp hb2 with rfl | hb2
            · exact absurd hv2 hv
            · exact ⟨b2, hb2, rfl, hv2⟩

lemma newNewPairs_emits (A B : ActiveRed) :
    ∀ (news : List ActiveRed) (ps : List (Point × Point)),
      newNewPairs news = some ps →
      List.Sublist [A, B] news →
      runContains A.visible B.red.2 = true →
      (A.red, B.red) ∈ ps := by
  intro news
  induction news with
  | nil =>
    intro ps _ hsub _
    exact absurd hsub.length_le (by simp)
  | cons x rest ih =>
    intro ps hps hsub hv
    rw [newNewPairs] at hps
    cases h1 : newNewOne x rest with
    | none => simp [h1] at hps
    | some first =>
      simp only [h1] at hps
      cases h2 : newNewPairs rest with
      | none => simp [h2] at hps
      | some more =>
        simp only [h2, Option.some.injEq] at hps
        subst hps
        rcases List.sublist_cons_iff.mp hsub with hsub2 | ⟨l2, hl2, hsub2⟩
        · exact List.mem_append.mpr (Or.inr (ih more h2 hsub2 hv))
        · injection hl2 with hx hl
          subst hx
          have hBrest : B ∈ rest := by
            rw [← hl] at hsub2
            exact hsub2.subset (by simp)
          exact List.mem_append.mpr
            (Or.inl ((newNewOne_mem_iff A rest first h1 _).mpr ⟨B, hBrest, rfl, hv⟩))

lemma newNewPairs_mem (news : List ActiveRed) (ps : List (Point × Point))
    (h : newNewPairs news = some ps) :
    ∀ p ∈ ps, ∃ a ∈ news, ∃ b ∈ news, p = (a.red, b.red) ∧
      runContains a.visible b.red.2 = true := by
  induction news generalizing ps with
  | nil =>
    simp only [newNewPairs, Option.some.injEq] at h
    subst h
    simp
  | cons a rest ih =>
    rw [newNewPairs] at h
    cases h1 : newNewOne a rest with
    | none => rw [h1] at h; exact absurd h (by simp)
    | some first =>
      rw [h1] at h
      cases h2 : newNewPairs rest with
      | none => rw [h2] at h; exact absurd h (by simp)
      | some more =>
        rw [h2] at h
        simp only [Option.some.injEq] at h
        subst h
        intro p hp
        rcases List.mem_append.mp hp with hp | hp
        · obtain ⟨b, hb, hpe, hv⟩ := (newNewOne_mem_iff a rest first h1 p).mp hp
          exact ⟨a, by simp, b, List.mem_cons_of_mem _ hb, hpe, hv⟩
        · obtain ⟨x, hx, b, hb, hpe, hv⟩ := ih more h2 p hp
          exact ⟨x, List.mem_cons_of_mem _ hx, b, List.mem_cons_of_mem _ hb, hpe, hv⟩

/-- Claim C6: for vertices created from the same band's red columns,
visibility is symmetric (A's visible interval contains B's column exactly
when B's contains A's), and the new-against-new emission loop emits the
unordered pair (as the ordered pair in list order) exactly when this holds;
hypotheses: the band's runs are sorted and disjoint, its red columns are
deduplicated, and the absorb and emission passes succeed. -/
theorem new_visibility_symmetric (t : Nat) (runs : List (Nat × Nat))
    (reds : List Nat) (news : List ActiveRed) (ps : List (Point × Point))
    (hdisj : runs.Pairwise (fun r1 r2 => r1.2 ≤ r2.1))
    (hnodup : reds.Nodup)
    (habs : absorb t runs reds = some news)
    (hps : newNewPairs news = some ps) :
    (∀ A ∈ news, ∀ B ∈ news,
      (runContains A.visible B.red.2 = true ↔ runContains B.visible A.red.2 = true)) ∧
    (∀ A B : ActiveRed, List.Sublist [A, B] news →
      ((A.red, B.red) ∈ ps ↔ runContains A.visible B.red.2 = true)) := by
  obtain ⟨hmap, hmem⟩ := absorb_results t reds runs news habs
  have hsymm : ∀ A ∈ news, ∀ B ∈ news,
      runContains A.visible B.red.2 = true → runContains B.visible A.red.2 = true := by
    intro A hA B hB hAB
    obtain ⟨hAv, hAc⟩ := hmem A hA
    obtain ⟨hBv, hBc⟩ := hmem B hB
    have heq : A.visible = B.visible :=
      run_unique runs hdisj B.red.2 A.visible hAv B.visible hBv hAB hBc
    rw [← heq]
    exact hAc
  have hreds : (news.map (fun x => x.red)).Nodup := by
    rw [hmap]
    exact hnodup.map (fun c1 c2 h => by
      simpa using congrArg Prod.snd h)
  refine ⟨fun A hA B hB => ⟨hsymm A hA B hB, hsymm B hB A hA⟩, ?_⟩
  intro A B hsub
  have hA : A ∈ news := hsub.subset (by simp)
  have hB : B ∈ news := hsub.subset (by simp)
  constructor
  · intro hmemp
    obtain ⟨a2, ha2, b2, hb2, hpe, hv⟩ := newNewPairs_mem news ps hps _ hmemp
    have hard : a2.red = A.red := by
      have := congrArg Prod.fst hpe
      simpa using this.symm
    have hbrd : b2.red = B.red := by
      have := congrArg Prod.snd hpe
      simpa using this.symm
    have ha2A : a2 = A := by
      have hinj := List.inj_on_of_nodup_map hreds
      exact hinj ha2 hA hard
    have hb2B : b2 = B := by
      have hinj := List.inj_on_of_nodup_map hreds
      exact hinj hb2 hB hbrd
    subst ha2A
    subst hb2B
    exact hv
  · exact newNewPairs_emits A B news ps hps hsub

/-! Claim C2: the `band_bottom` computation of `BandIter::next`. -/

lemma foldl_min_of_le (a : Nat) :
    ∀ (xs : List Nat), (∀ y ∈ xs, a ≤ y) → xs.foldl min a = a := by
  intro xs
  induction xs generalizing a with
  | nil => intro _; rfl
  | cons y ys ih =>
    intro h
    have hay : min a y = a := Nat.min_eq_left (h y (by simp))
    rw [List.foldl_cons, hay]
    exact ih a (fun z hz => h z (by simp [hz]))

lemma nat_min?_eq_some_iff (a : Nat) (xs : List Nat) :
    xs.min? = some a ↔ a ∈ xs ∧ ∀ b ∈ xs, a ≤ b := by
  rw [List.min?_eq_some_iff]
  · exact fun x => Nat.le_refl x
  · exact fun x y => min_choice x y
  · exact fun x y z => Nat.le_min

lemma sorted_head_min (key : Edge → Nat) (le : Edge → Edge → Bool)
    (hkey : ∀ a b, le a b = true → key a ≤ key b) :
    ∀ (l : List Edge), l.Pairwise (fun a b => le a b = true) →
      (l.map key).min? = l.head?.map key := by
  intro l hl
  cases l with
  | nil => rfl
  | cons x xs =>
    rw [show (x :: xs).head?.map key = some (key x) from rfl]
    rw [nat_min?_eq_some_iff]
    constructor
    · simp
    · intro b hb
      obtain ⟨e, he, rfl⟩ := List.mem_map.mp hb
      rcases List.mem_cons.mp he with rfl | he
      · exact Nat.le_refl _
      · exact hkey x e ((List.pairwise_cons.mp hl).1 e he)

lemma leByBottom_key (a b : Edge) (h : leByBottom a b = true) :
    edge_bottom a ≤ edge_bottom b := by
  simp only [leByBottom, Bool.or_eq_true, Bool.and_eq_true, decide_eq_true_eq,
    beq_iff_eq] at h
  omega

lemma leByTop_key (a b : Edge) (h : leByTop a b = true) :
    edge_top a ≤ edge_top b := by
  simp only [leByTop, Bool.or_eq_true, Bool.and_eq_true, decide_eq_true_eq,
    beq_iff_eq] at h
  omega

lemma popDone_suffix (t : Nat) :
    ∀ (l nx1 : List Edge), popDone t l = some nx1 → nx1 <:+ l := by
  intro l
  induction l with
  | nil =>
    intro nx1 h
    simp only [popDone, Option.some.injEq] at h
    subst h
    exact List.suffix_refl _
  | cons x xs ih =>
    intro nx1 h
    rw [popDone] at h
    split at h
    · exact absurd h (by simp)
    · split at h
      · exact (ih nx1 h).trans (List.suffix_cons x xs)
      · simp only [Option.some.injEq] at h
        subst h
        exact List.suffix_refl _

/-- Claim C2: whenever `BandIter::next` yields a band, if the per-row scan
set `includes_bottom_edge` the band is a single row (`band_bottom` equals
`band_top`); otherwise `band_bottom` is one less than the minimum of the
smallest bottom row remaining in the `next` heap after popping finished
edges and the smallest top row remaining in the `unreached` heap, or
`band_top` when both heaps are exhausted. -/
theorem band_bottom_formula (st : BandState) (b : Band) (st2 : BandState)
    (runs : List (Nat × Nat)) (flag : Bool) (nx1 : List Edge)
    (hsorted : st.next.Pairwise (fun a b => leByBottom a b = true))
    (husort : st.unreached.Pairwise (fun a b => leByTop a b = true))
    (hscan : scanEdges st.next_row (sortScan st.next) = some (runs, flag))
    (hpop : popDone st.next_row st.next = some nx1)
    (hy : nextBand st = .yield b st2) :
    b.rows.2 = (if flag = true then b.rows.1
      else match (nx1.map edge_bottom).min?, (st.unreached.map edge_top).min? with
        | none, none => b.rows.1
        | some nb, none => nb - 1
        | none, some nt => nt - 1
        | some nb, some nt => min nb nt - 1) := by
  have hnx1 : nx1.Pairwise (fun a b => leByBottom a b = true) :=
    hsorted.sublist (popDone_suffix st.next_row st.next nx1 hpop).sublist
  have hminb := sorted_head_min edge_bottom leByBottom leByBottom_key nx1 hnx1
  have hmint := sorted_head_min edge_top leByTop leByTop_key st.unreached husort
  rw [nextBand] at hy
  split at hy
  · exact absurd hy (by simp)
  · cases hr : redsRaw st.next_row st.next with
    | none => simp [hr] at hy
    | some raw =>
      simp only [hr] at hy
      split at hy
      · simp only [hscan, hpop] at hy
        split at hy
        · rename_i hle
          obtain ⟨hb, hst2⟩ := Step.yield.inj hy
          subst hb
          simp only
          rw [bandBottomOf.eq_def, hminb, hmint]
          cases flag with
          | true => simp
          | false =>
            simp only [Bool.false_eq_true, if_false]
            cases nx1 with
            | nil =>
              cases st.unreached with
              | nil => simp
              | cons u us => simp
            | cons x xs =>
              cases st.unreached with
              | nil => simp
              | cons u us => simp
        · exact absurd hy (by simp)
      · exact absurd hy (by simp)

/-- Witness for C2: the formula applied to the first band of the square test
shape, where the flag is clear and both heaps still hold events. -/
theorem band_bottom_formula_witness :
    sqBand1.rows.2
      = (if false = true then sqBand1.rows.1
         else match
            (([⟨(22,10),(12,10)⟩, ⟨(12,20),(22,20)⟩] : List Edge).map edge_bottom).min?,
            (sqState0.unreached.map edge_top).min? with
          | none, none => sqBand1.rows.1
          | some nb, none => nb - 1
          | none, some nt => nt - 1
          | some nb, some nt => min nb nt - 1) :=
  band_bottom_formula sqState0 sqBand1 sqState1 [(10, 21)] false
    [⟨(22,10),(12,10)⟩, ⟨(12,20),(22,20)⟩]
    (by decide) (by decide) (by decide) (by decide) (by decide)

/-! Claim C8: degenerate single-line inputs. -/

lemma compare_nat_self (n : Nat) : compare n n = Ordering.eq := by
  simp [compare, compareOfLessAndEq, Nat.lt_irrefl]

/-- Counterexample for C8: on the single horizontal line of the ignored
`horizontal_line` test, the decomposition does not succeed: the per-row scan
hits the bare-horizontal-edge-outside panic and the run aborts. -/
theorem horizontal_line_fails :
    (from_edges hLineEdges).map (fun st => runBands (stBound st) st)
      = some RunOut.err := by decide

lemma runBands_of_empty (fuel : Nat) (st : BandState) (h : st.next = []) :
    runBands fuel st = .ok [] st := by
  cases fuel with
  | zero => simp [runBands, h]
  | succ n => simp [runBands, nextBand, h]

lemma vline_from_edges (r1 r2 c : Nat) (h : r1 < r2) :
    from_edges (vLineEdges r1 r2 c)
      = some ⟨r1, [⟨(r1,c),(r2,c)⟩, ⟨(r2,c),(r1,c)⟩], []⟩ := by
  have h12 : r1 ≠ r2 := Nat.ne_of_lt h
  have h21 : r2 ≠ r1 := Ne.symm h12
  have hmin : min r1 r2 = r1 := Nat.min_eq_left (Nat.le_of_lt h)
  have hmin2 : min r2 r1 = r1 := Nat.min_eq_right (Nat.le_of_lt h)
  have hmax : max r1 r2 = r2 := Nat.max_eq_right (Nat.le_of_lt h)
  have hmax2 : max r2 r1 = r2 := Nat.max_eq_left (Nat.le_of_lt h)
  simp [vLineEdges, from_edges, validEdge, isClosedChain, chainLoop, insertSorted,
    leByTop, edge_top, edge_left, drain, Prod.ext_iff, h12, h21, hmin, hmin2,
    hmax, hmax2, leByBottom, edge_bottom]

lemma vline_step1 (r1 r2 c : Nat) (h : r1 < r2) :
    nextBand ⟨r1, [⟨(r1,c),(r2,c)⟩, ⟨(r2,c),(r1,c)⟩], []⟩
      = .yield ⟨(r1, r2 - 1), [(c, c + 1)], [c]⟩
          ⟨r2, [⟨(r1,c),(r2,c)⟩, ⟨(r2,c),(r1,c)⟩], []⟩ := by
  have h12 : r1 ≠ r2 := Nat.ne_of_lt h
  have h21 : r2 ≠ r1 := Ne.symm h12
  have hmin : min r1 r2 = r1 := Nat.min_eq_left (Nat.le_of_lt h)
  have hmin2 : min r2 r1 = r1 := Nat.min_eq_right (Nat.le_of_lt h)
  have hmax : max r1 r2 = r2 := Nat.max_eq_right (Nat.le_of_lt h)
  have hmax2 : max r2 r1 = r2 := Nat.max_eq_left (Nat.le_of_lt h)
  have hsub : r2 - 1 + 1 = r2 := by omega
  have hnlt : ¬ r2 < r1 := by omega
  have hnle : ¬ r2 ≤ r1 := by omega
  have hle1 : r1 ≤ r2 - 1 := by omega
  simp [nextBand, redsRaw, redContrib, sortNats, insertNat, dedupAdj, sortScan,
    insertCmp, cmpScan, compare_nat_self, Ordering.then, scanEdges, scanStep,
    List.foldlM, Option.bind, is_vertical, goes_down, are_connected, push_run,
    popDone, bandBottomOf, drain, edge_top, edge_bottom, edge_left, edge_right,
    Prod.ext_iff, h12, h21, hmin, hmin2, hmax, hmax2, hsub, hnlt, hnle, hle1, h,
    Nat.lt_irrefl]

lemma vline_step2 (r1 r2 c : Nat) (h : r1 < r2) :
    nextBand ⟨r2, [⟨(r1,c),(r2,c)⟩, ⟨(r2,c),(r1,c)⟩], []⟩
      = .yield ⟨(r2, r2), [(c, c + 1)], [c]⟩ ⟨r2 + 1, [], []⟩ := by
  have h12 : r1 ≠ r2 := Nat.ne_of_lt h
  have h21 : r2 ≠ r1 := Ne.symm h12
  have hmin : min r1 r2 = r1 := Nat.min_eq_left (Nat.le_of_lt h)
  have hmin2 : min r2 r1 = r1 := Nat.min_eq_right (Nat.le_of_lt h)
  have hmax : max r1 r2 = r2 := Nat.max_eq_right (Nat.le_of_lt h)
  have hmax2 : max r2 r1 = r2 := Nat.max_eq_left (Nat.le_of_lt h)
  have hnlt : ¬ r2 < r1 := by omega
  have hnle : ¬ r2 ≤ r1 := by omega
  simp [nextBand, redsRaw, redContrib, sortNats, insertNat, dedupAdj, sortScan,
    insertCmp, cmpScan, compare_nat_self, Ordering.then, scanEdges, scanStep,
    List.foldlM, Option.bind, is_vertical, goes_down, are_connected, push_run,
    popDone, bandBottomOf, drain, edge_top, edge_bottom, edge_left, edge_right,
    Prod.ext_iff, h12, h21, hmin, hmin2, hmax, hmax2, hnlt, hnle, h,
    Nat.lt_irrefl]

/-- Claim C8 (amended): a single vertical line segment, as the degenerate
2-edge loop of the `vertical_line` test, decomposes successfully into two
bands whose single run is the line's own one-column extent, with the red
column of the line's endpoints in each; a single horizontal line segment is
instead rejected as malformed (see the counterexample theorem). -/
theorem vertical_line_bands (r1 r2 c : Nat) (h : r1 < r2) :
    ∃ st0, from_edges (vLineEdges r1 r2 c) = some st0 ∧
      runBands (stBound st0) st0
        = RunOut.ok [⟨(r1, r2 - 1), [(c, c + 1)], [c]⟩, ⟨(r2, r2), [(c, c + 1)], [c]⟩]
            ⟨r2 + 1, [], []⟩ := by
  refine ⟨⟨r1, [⟨(r1,c),(r2,c)⟩, ⟨(r2,c),(r1,c)⟩], []⟩, vline_from_edges r1 r2 c h, ?_⟩
  have hbound : stBound ⟨r1, [⟨(r1,c),(r2,c)⟩, ⟨(r2,c),(r1,c)⟩], []⟩ = r2 + 2 := by
    simp [stBound, maxBottomList, edge_bottom,
      Nat.max_eq_right (Nat.le_of_lt h), Nat.max_eq_left (Nat.le_of_lt h)]
  rw [hbound, show r2 + 2 = (r2 + 1) + 1 from rfl]
  simp only [runBands, vline_step1 r1 r2 c h, vline_step2 r1 r2 c h,
    runBands_of_empty]

/-- Witness for C8 (amended): the vertical-line bands at the concrete
repository test values, rows 12 to 22 at column 10. -/
theorem vertical_line_bands_witness :
    ∃ st0, from_edges (vLineEdges 12 22 10) = some st0 ∧
      runBands (stBound st0) st0
        = RunOut.ok [⟨(12, 21), [(10, 11)], [10]⟩, ⟨(22, 22), [(10, 11)], [10]⟩]
            ⟨23, [], []⟩ :=
  vertical_line_bands 12 22 10 (by decide)

/-! Claim C10: the part2 reduction never returns less than 1. -/

lemma foldl_area_ge (ps : List (Point × Point)) :
    ∀ acc : Nat,
      acc ≤ ps.foldl (fun acc pq => if area pq.1 pq.2 > acc then area pq.1 pq.2 else acc) acc := by
  induction ps with
  | nil => intro acc; exact Nat.le_refl _
  | cons p rest ih =>
    intro acc
    rw [List.foldl_cons]
    refine le_trans ?_ (ih _)
    split
    · omega
    · exact Nat.le_refl _

/-- Claim C10: whenever the part2 reduction returns a value, that value is at
least 1 (the accumulator starts at 1), and if the rectangle enumeration
emitted no candidate pair at all the returned maximum area is exactly 1. -/
theorem part2_at_least_one (red : List Point) (n : Nat) (h : part2 red = some n) :
    1 ≤ n ∧ (rectanglePairs red = some [] → n = 1) := by
  rw [part2] at h
  cases hp : rectanglePairs red with
  | none => rw [hp] at h; exact absurd h (by simp)
  | some ps =>
    rw [hp] at h
    simp only [Option.map_some', Option.some.injEq] at h
    subst h
    constructor
    · exact foldl_area_ge ps 1
    · intro he
      have hps : ps = [] := Option.some.inj he
      subst hps
      rfl

/-- Witness for C10: the bound applied to the square test shape, whose
maximum rectangle area is 121. -/
theorem part2_at_least_one_witness :
    1 ≤ 121 ∧ (rectanglePairs sqVertices = some [] → 121 = 1) :=
  part2_at_least_one sqVertices 121 (by decide)

/-! Shared sweep-line infrastructure: heap, drain and pop lemmas, the sweep
invariant, and the per-step and whole-run properties of the band iterator. -/

lemma leByBottom_iff (a b : Edge) :
    leByBottom a b = true ↔
      (edge_bottom a < edge_bottom b ∨
        (edge_bottom a = edge_bottom b ∧ edge_left a ≤ edge_left b)) := by
  simp [leByBottom]

lemma leByTop_iff (a b : Edge) :
    leByTop a b = true ↔
      (edge_top a < edge_top b ∨
        (edge_top a = edge_top b ∧ edge_left a ≤ edge_left b)) := by
  simp [leByTop]

lemma leByBottom_total (a b : Edge) (h : leByBottom a b = false) :
    leByBottom b a = true := by
  rw [leByBottom_iff]
  have hna : ¬ (edge_bottom a < edge_bottom b ∨
      (edge_bottom a = edge_bottom b ∧ edge_left a ≤ edge_left b)) := by
    intro hcon
    rw [(leByBottom_iff a b).mpr hcon] at h
    exact absurd h (by simp)
  omega

lemma leByTop_total (a b : Edge) (h : leByTop a b = false) :
    leByTop b a = true := by
  rw [leByTop_iff]
  have hna : ¬ (edge_top a < edge_top b ∨
      (edge_top a = edge_top b ∧ edge_left a ≤ edge_left b)) := by
    intro hcon
    rw [(leByTop_iff a b).mpr hcon] at h
    exact absurd h (by simp)
  omega

lemma leByBottom_trans (a b c : Edge) (h1 : leByBottom a b = true)
    (h2 : leByBottom b c = true) : leByBottom a c = true := by
  rw [leByBottom_iff] at h1 h2 ⊢
  omega

lemma leByTop_trans (a b c : Edge) (h1 : leByTop a b = true)
    (h2 : leByTop b c = true) : leByTop a c = true := by
  rw [leByTop_iff] at h1 h2 ⊢
  omega

lemma insertSorted_perm (le : Edge → Edge → Bool) (x : Edge) :
    ∀ (l : List Edge), (insertSorted le x l).Perm (x :: l) := by
  intro l
  induction l with
  | nil => exact List.Perm.refl _
  | cons y ys ih =>
    rw [insertSorted]
    split
    · exact List.Perm.refl _
    · exact (List.Perm.cons y ih).trans (List.Perm.swap x y ys)

lemma insertSorted_mem (le : Edge → Edge → Bool) (x : Edge) (l : List Edge)
    (e : Edge) (h : e ∈ insertSorted le x l) : e = x ∨ e ∈ l := by
  have := (insertSorted_perm le x l).mem_iff.mp h
  simpa using this

lemma insertSorted_sorted (le : Edge → Edge → Bool)
    (htot : ∀ a b, le a b = false → le b a = true)
    (htrans : ∀ a b c, le a b = true → le b c = true → le a c = true)
    (x : Edge) :
    ∀ (l : List Edge), l.Pairwise (fun a b => le a b = true) →
      (insertSorted le x l).Pairwise (fun a b => le a b = true) := by
  intro l
  induction l with
  | nil => intro _; simp [insertSorted]
  | cons y ys ih =>
    intro hs
    rw [insertSorted]
    obtain ⟨hy, hys⟩ := List.pairwise_cons.mp hs
    split
    · rename_i hxy
      refine List.pairwise_cons.mpr ⟨?_, hs⟩
      intro e he
      rcases List.mem_cons.mp he with rfl | he
      · exact hxy
      · exact htrans x y e hxy (hy e he)
    · rename_i hxy
      have hyx : le y x = true := htot x y (by simpa using hxy)
      refine List.pairwise_cons.mpr ⟨?_, ih hys⟩
      intro e he
      rcases insertSorted_mem le x ys e he with rfl | he
      · exact hyx
      · exact hy e he

lemma foldl_insert_perm (le : Edge → Edge → Bool) :
    ∀ (es init : List Edge),
      (es.foldl (fun acc x => insertSorted le x acc) init).Perm (es ++ init) := by
  intro es
  induction es with
  | nil => intro init; simp
  | cons x rest ih =>
    intro init
    rw [List.foldl_cons]
    refine (ih (insertSorted le x init)).trans ?_
    exact (List.Perm.append_left rest (insertSorted_perm le x init)).trans List.perm_middle

lemma foldl_insert_sorted (le : Edge → Edge → Bool)
    (htot : ∀ a b, le a b = false → le b a = true)
    (htrans : ∀ a b c, le a b = true → le b c = true → le a c = true) :
    ∀ (es init : List Edge), init.Pairwise (fun a b => le a b = true) →
      (es.foldl (fun acc x => insertSorted le x acc) init).Pairwise
        (fun a b => le a b = true) := by
  intro es
  induction es with
  | nil => intro init h; exact h
  | cons x rest ih =>
    intro init h
    rw [List.foldl_cons]
    exact ih _ (insertSorted_sorted le htot htrans x init h)

lemma edge_top_le_bottom (e : Edge) : edge_top e ≤ edge_bottom e := by
  simp only [edge_top, edge_bottom]
  omega

lemma drain_props (row : Nat) :
    ∀ (un nx nx2 un2 : List Edge), drain row nx un = (nx2, un2) →
      ((nx2 ++ un2).Perm (nx ++ un) ∧ un2.Sublist un) ∧
      (∀ e ∈ nx2, e ∈ nx ∨ (e ∈ un ∧ edge_top e = row)) ∧
      (nx.Pairwise (fun a b => leByBottom a b = true) →
        nx2.Pairwise (fun a b => leByBottom a b = true)) ∧
      (un.Pairwise (fun a b => leByTop a b = true) →
        (∀ e ∈ un, row ≤ edge_top e) → ∀ e ∈ un2, row < edge_top e) := by
  intro un
  induction un with
  | nil =>
    intro nx nx2 un2 h
    simp only [drain, Prod.mk.injEq] at h
    obtain ⟨rfl, rfl⟩ := h
    refine ⟨⟨by simp, List.Sublist.refl _⟩, fun e he => Or.inl he, fun hs => hs,
      fun _ _ e he => absurd he (by simp)⟩
  | cons u us ih =>
    intro nx nx2 un2 h
    rw [drain] at h
    split at h
    · rename_i htop
      obtain ⟨⟨hperm, hsub⟩, hmem, hsort, hun⟩ :=
        ih (insertSorted leByBottom u nx) nx2 un2 h
      refine ⟨⟨?_, hsub.trans (List.sublist_cons_self u us)⟩, ?_, ?_, ?_⟩
      · refine hperm.trans ?_
        exact (List.Perm.append_right us (insertSorted_perm leByBottom u nx)).trans
          List.perm_middle.symm
      · intro e he
        rcases hmem e he with he2 | ⟨he2, he3⟩
        · rcases insertSorted_mem leByBottom u nx e he2 with rfl | he4
          · exact Or.inr ⟨by simp, by simpa using htop⟩
          · exact Or.inl he4
        · exact Or.inr ⟨by simp [he2], he3⟩
      · intro hs
        exact hsort (insertSorted_sorted leByBottom leByBottom_total
          leByBottom_trans u nx hs)
      · intro hsu hge
        refine hun (List.pairwise_cons.mp hsu).2 ?_
        intro e he
        exact hge e (by simp [he])
    · rename_i htop
      obtain ⟨rfl, rfl⟩ := Prod.mk.injEq .. |>.mp h
      refine ⟨⟨List.Perm.refl _, List.Sublist.refl _⟩, fun e he => Or.inl he,
        fun hs => hs, ?_⟩
      intro hsu hge e he
      have hneq : edge_top u ≠ row := by simpa using htop
      have hu : row < edge_top u :=
        Nat.lt_of_le_of_ne (hge u (by simp)) (Ne.symm hneq)
      rcases List.mem_cons.mp he with rfl | he
      · exact hu
      · have := (List.pairwise_cons.mp hsu).1 e he
        rw [leByTop_iff] at this
        omega

lemma popDone_props (t : Nat) :
    ∀ (l nx1 : List Edge), popDone t l = some nx1 →
      (∃ dropped, l = dropped ++ nx1 ∧ ∀ e ∈ dropped, edge_bottom e = t) ∧
      (l.Pairwise (fun a b => leByBottom a b = true) →
        ∀ e ∈ nx1, t < edge_bottom e) := by
  intro l
  induction l with
  | nil =>
    intro nx1 h
    simp only [popDone, Option.some.injEq] at h
    subst h
    exact ⟨⟨[], rfl, by simp⟩, fun _ e he => absurd he (by simp)⟩
  | cons x xs ih =>
    intro nx1 h
    rw [popDone] at h
    split at h
    · exact absurd h (by simp)
    · split at h
      · rename_i hnlt heq
        obtain ⟨⟨dropped, hdeq, hdall⟩, hbound⟩ := ih nx1 h
        refine ⟨⟨x :: dropped, by simp [hdeq], ?_⟩, ?_⟩
        · intro e he
          rcases List.mem_cons.mp he with rfl | he
          · simpa using heq
          · exact hdall e he
        · intro hs
          exact hbound ((List.pairwise_cons.mp hs).2)
      · rename_i hnlt hneq
        simp only [Option.some.injEq] at h
        subst h
        refine ⟨⟨[], rfl, by simp⟩, ?_⟩
        intro hs e he
        have hx : t < edge_bottom x := by
          have h1 : ¬ edge_bottom x < t := hnlt
          have h2 : edge_bottom x ≠ t := by simpa using hneq
          omega
        rcases List.mem_cons.mp he with rfl | he
        · exact hx
        · have := (List.pairwise_cons.mp hs).1 e he
          rw [leByBottom_iff] at this
          omega

lemma maxBottomList_bound (l : List Edge) (e : Edge) (h : e ∈ l) :
    edge_bottom e ≤ maxBottomList l := by
  induction l with
  | nil => exact absurd h (by simp)
  | cons x xs ih =>
    rw [maxBottomList, List.foldr_cons]
    rcases List.mem_cons.mp h with rfl | h
    · exact Nat.le_max_left _ _
    · exact le_trans (ih h) (Nat.le_max_right _ _)

lemma maxBottomList_mono (l1 l2 : List Edge) (h : ∀ e ∈ l1, e ∈ l2) :
    maxBottomList l1 ≤ maxBottomList l2 := by
  induction l1 with
  | nil => simp [maxBottomList]
  | cons x xs ih =>
    rw [maxBottomList, List.foldr_cons]
    refine Nat.max_le.mpr ⟨maxBottomList_bound l2 x (h x (by simp)), ?_⟩
    exact ih (fun e he => h e (by simp [he]))

lemma sorted_head_le_bottom (x : Edge) (xs : List Edge)
    (h : (x :: xs).Pairwise (fun a b => leByBottom a b = true)) :
    ∀ e ∈ x :: xs, edge_bottom x ≤ edge_bottom e := by
  intro e he
  rcases List.mem_cons.mp he with rfl | he
  · exact Nat.le_refl _
  · have := (List.pairwise_cons.mp h).1 e he
    rw [leByBottom_iff] at this
    omega

lemma sorted_head_le_top (x : Edge) (xs : List Edge)
    (h : (x :: xs).Pairwise (fun a b => leByTop a b = true)) :
    ∀ e ∈ x :: xs, edge_top x ≤ edge_top e := by
  intro e he
  rcases List.mem_cons.mp he with rfl | he
  · exact Nat.le_refl _
  · have := (List.pairwise_cons.mp h).1 e he
    rw [leByTop_iff] at this
    omega

lemma bandBottom_bounds (row : Nat) (flag : Bool) (nx1 un : List Edge)
    (hnx1s : nx1.Pairwise (fun a b => leByBottom a b = true))
    (huns : un.Pairwise (fun a b => leByTop a b = true))
    (hnb : ∀ e ∈ nx1, row < edge_bottom e)
    (hub : ∀ e ∈ un, row < edge_top e) :
    (∀ e ∈ nx1, bandBottomOf row flag nx1 un + 1 ≤ edge_bottom e) ∧
    (∀ e ∈ un, bandBottomOf row flag nx1 un + 1 ≤ edge_top e) := by
  cases flag with
  | true =>
    rw [show bandBottomOf row true nx1 un = row from rfl]
    exact ⟨fun e he => hnb e he, fun e he => hub e he⟩
  | false =>
    cases nx1 with
    | nil =>
      cases un with
      | nil =>
        exact ⟨fun e he => absurd he (by simp), fun e he => absurd he (by simp)⟩
      | cons u us =>
        rw [show bandBottomOf row false [] (u :: us) = edge_top u - 1 from rfl]
        have h1 : row < edge_top u := hub u (by simp)
        refine ⟨fun e he => absurd he (by simp), fun e he => ?_⟩
        have := sorted_head_le_top u us huns e he
        omega
    | cons x xs =>
      cases un with
      | nil =>
        rw [show bandBottomOf row false (x :: xs) [] = edge_bottom x - 1 from rfl]
        have h1 : row < edge_bottom x := hnb x (by simp)
        refine ⟨fun e he => ?_, fun e he => absurd he (by simp)⟩
        have := sorted_head_le_bottom x xs hnx1s e he
        omega
      | cons u us =>
        rw [show bandBottomOf row false (x :: xs) (u :: us)
            = min (edge_bottom x) (edge_top u) - 1 from rfl]
        have h1 : row < edge_bottom x := hnb x (by simp)
        have h2 : row < edge_top u := hub u (by simp)
        constructor
        · intro e he
          have := sorted_head_le_bottom x xs hnx1s e he
          omega
        · intro e he
          have := sorted_head_le_top u us huns e he
          omega

theorem nextBand_step (es : List Edge) (st : BandState) (b : Band)
    (st2 : BandState) (hInv : InvFor es st) (hy : nextBand st = .yield b st2) :
    InvFor es st2 ∧ b.rows.1 = st.next_row ∧ st2.next_row = b.rows.2 + 1 ∧
    st.next_row ≤ b.rows.2 ∧
    (∀ e ∈ st2.next ++ st2.unreached, e ∈ st.next ++ st.unreached) := by
  obtain ⟨hsn, hsu, hbn, hbu, popped, hperm, hpopped⟩ := hInv
  rw [nextBand] at hy
  split at hy
  · exact absurd hy (by simp)
  · cases hr : redsRaw st.next_row st.next with
    | none => simp [hr] at hy
    | some raw =>
      simp only [hr] at hy
      split at hy
      · cases hsc : scanEdges st.next_row (sortScan st.next) with
        | none => simp [hsc] at hy
        | some pr =>
          rcases pr with ⟨runs, flag⟩
          simp only [hsc] at hy
          cases hpd : popDone st.next_row st.next with
          | none => simp [hpd] at hy
          | some nx1 =>
            simp only [hpd] at hy
            split at hy
            · rename_i hle
              obtain ⟨hb, hst2⟩ := Step.yield.inj hy
              obtain ⟨⟨dropped1, hdeq, hdall⟩, hb1f⟩ :=
                popDone_props st.next_row st.next nx1 hpd
              have hnx1sub : nx1.Sublist st.next := by
                rw [hdeq]
                exact List.sublist_append_right dropped1 nx1
              have hnx1s : nx1.Pairwise (fun a b => leByBottom a b = true) :=
                hsn.sublist hnx1sub
              have hnx1b : ∀ e ∈ nx1, st.next_row < edge_bottom e := hb1f hsn
              have hunb : ∀ e ∈ st.unreached, st.next_row < edge_top e := hbu
              obtain ⟨hkey1, hkey2⟩ := bandBottom_bounds st.next_row flag nx1
                st.unreached hnx1s hsu hnx1b hunb
              rcases hd : drain (bandBottomOf st.next_row flag nx1 st.unreached + 1)
                  nx1 st.unreached with ⟨nx2, un2⟩
              obtain ⟨⟨hdperm, hdsub⟩, hdmem, hdsort, hdun⟩ :=
                drain_props (bandBottomOf st.next_row flag nx1 st.unreached + 1)
                  st.unreached nx1 nx2 un2 hd
              have hst2e : st2 =
                  ⟨bandBottomOf st.next_row flag nx1 st.unreached + 1, nx2, un2⟩ := by
                rw [← hst2, hd]
              have hbe : b = ⟨(st.next_row,
                  bandBottomOf st.next_row flag nx1 st.unreached), runs,
                  dedupAdj (sortNats raw)⟩ := hb.symm
              subst hst2e
              subst hbe
              dsimp only
              refine ⟨⟨hdsort hnx1s, hsu.sublist hdsub, ?_, ?_, ?_⟩, rfl, rfl, hle, ?_⟩
              · intro e he
                dsimp only at he ⊢
                rcases hdmem e he with he2 | ⟨he2, he3⟩
                · have htop : edge_top e ≤ st.next_row := (hbn e (hnx1sub.subset he2)).1
                  have := hkey1 e he2
                  omega
                · refine ⟨Nat.le_of_eq he3, ?_⟩
                  rw [← he3]
                  exact edge_top_le_bottom e
              · dsimp only
                exact hdun hsu (fun e he => hkey2 e he)
              · refine ⟨popped ++ dropped1, ?_, ?_⟩
                · refine hperm.trans ?_
                  rw [hdeq]
                  have hassoc : popped ++ (dropped1 ++ nx1) ++ st.unreached
                      = (popped ++ dropped1) ++ (nx1 ++ st.unreached) := by
                    simp [List.append_assoc]
                  rw [hassoc]
                  have hassoc2 : (popped ++ dropped1) ++ nx2 ++ un2
                      = (popped ++ dropped1) ++ (nx2 ++ un2) := by
                    simp [List.append_assoc]
                  rw [hassoc2]
                  exact List.Perm.append_left (popped ++ dropped1) hdperm.symm
                · intro e he
                  dsimp only
                  rcases List.mem_append.mp he with he2 | he2
                  · have := hpopped e he2
                    omega
                  · have := hdall e he2
                    omega
              · intro e he
                rcases List.mem_append.mp he with he2 | he2
                · rcases hdmem e he2 with he3 | ⟨he3, _⟩
                  · exact List.mem_append.mpr (Or.inl (hnx1sub.subset he3))
                  · exact List.mem_append.mpr (Or.inr he3)
                · exact List.mem_append.mpr (Or.inr (hdsub.subset he2))
            · exact absurd hy (by simp)
      · exact absurd hy (by simp)

lemma nextBand_done_next_nil (st : BandState) (h : nextBand st = .done) :
    st.next = [] := by
  rw [nextBand] at h
  split at h
  · rename_i hemp
    simpa [List.isEmpty_iff] using hemp
  · exfalso
    cases hr : redsRaw st.next_row st.next with
    | none => simp [hr] at h
    | some raw =>
      simp only [hr] at h
      split at h
      · cases hsc : scanEdges st.next_row (sortScan st.next) with
        | none => simp [hsc] at h
        | some pr =>
          rcases pr with ⟨runs, flag⟩
          simp only [hsc] at h
          cases hpd : popDone st.next_row st.next with
          | none => simp [hpd] at h
          | some nx1 =>
            simp only [hpd] at h
            split at h
            · exact absurd h (by simp)
            · exact absurd h (by simp)
      · exact absurd h (by simp)

theorem from_edges_inv (es : List Edge) (st0 : BandState)
    (h : from_edges es = some st0) :
    InvFor es st0 ∧ (∀ e ∈ es, st0.next_row ≤ edge_top e) ∧
    isClosedChain es = true ∧ es.all validEdge = true := by
  rw [from_edges] at h
  split at h
  · rename_i hcond
    simp only [Bool.and_eq_true] at hcond
    obtain ⟨⟨hvalid, _⟩, hchain⟩ := hcond
    cases hfold : es.foldl (fun acc x => insertSorted leByTop x acc) [] with
    | nil => simp [hfold] at h
    | cons top rest =>
      simp only [hfold] at h
      have hsorted : (top :: rest).Pairwise (fun a b => leByTop a b = true) := by
        rw [← hfold]
        exact foldl_insert_sorted leByTop leByTop_total leByTop_trans es [] (by simp)
      have hperm : (top :: rest).Perm es := by
        rw [← hfold]
        simpa using foldl_insert_perm leByTop es []
      rcases hd : drain (edge_top top) [] (top :: rest) with ⟨nx, un⟩
      simp only [hd, Option.some.injEq] at h
      subst h
      obtain ⟨⟨hdperm, hdsub⟩, hdmem, hdsort, hdun⟩ :=
        drain_props (edge_top top) (top :: rest) [] nx un hd
      have hmintop : ∀ e ∈ top :: rest, edge_top top ≤ edge_top e :=
        sorted_head_le_top top rest hsorted
      have hmines : ∀ e ∈ es, edge_top top ≤ edge_top e := by
        intro e he
        exact hmintop e (hperm.mem_iff.mpr he)
      refine ⟨⟨hdsort (by simp), hsorted.sublist hdsub, ?_, ?_, [], ?_, by simp⟩,
        hmines, hchain, hvalid⟩
      · intro e he
        dsimp only at he ⊢
        rcases hdmem e he with he2 | ⟨_, he3⟩
        · exact absurd he2 (by simp)
        · exact ⟨Nat.le_of_eq he3, he3 ▸ edge_top_le_bottom e⟩
      · dsimp only
        exact hdun hsorted hmintop
      · dsimp only
        exact hperm.symm.trans hdperm.symm
  · exact absurd h (by simp)

theorem runBands_ok_props :
    ∀ (fuel : Nat) (es : List Edge) (st : BandState) (bands : List Band)
      (fin : BandState),
      InvFor es st → runBands fuel st = .ok bands fin →
      InvFor es fin ∧ fin.next = [] ∧
      bandsChain st.next_row bands fin.next_row ∧
      (∀ e ∈ fin.next ++ fin.unreached, e ∈ st.next ++ st.unreached) := by
  intro fuel
  induction fuel with
  | zero =>
    intro es st bands fin hInv hrun
    rw [runBands] at hrun
    split at hrun
    · rename_i hemp
      obtain ⟨rfl, rfl⟩ := RunOut.ok.inj hrun
      exact ⟨hInv, by simpa [List.isEmpty_iff] using hemp, rfl, fun e he => he⟩
    · exact absurd hrun (by simp)
  | succ n ih =>
    intro es st bands fin hInv hrun
    rw [runBands] at hrun
    cases hstep : nextBand st with
    | done =>
      rw [hstep] at hrun
      obtain ⟨rfl, rfl⟩ := RunOut.ok.inj hrun
      exact ⟨hInv, nextBand_done_next_nil st hstep, rfl, fun e he => he⟩
    | err =>
      rw [hstep] at hrun
      exact absurd hrun (by simp)
    | yield b st2 =>
      simp only [hstep] at hrun
      obtain ⟨hInv2, hb1, hrow2, hle, hsub⟩ := nextBand_step es st b st2 hInv hstep
      cases hrec : runBands n st2 with
      | ok bs f =>
        simp only [hrec] at hrun
        obtain ⟨hb2, hf⟩ := RunOut.ok.inj hrun
        subst hb2
        subst hf
        obtain ⟨hInvF, hfn, hchain2, hsub2⟩ := ih es st2 bs f hInv2 hrec
        refine ⟨hInvF, hfn, ?_, fun e he => hsub e (hsub2 e he)⟩
        exact ⟨hb1, hle, hrow2 ▸ hchain2⟩
      | err => simp only [hrec] at hrun; exact absurd hrun (by simp)
      | out => simp only [hrec] at hrun; exact absurd hrun (by simp)

theorem runBands_no_out :
    ∀ (n : Nat) (es : List Edge) (st : BandState),
      InvFor es st →
      maxBottomList (st.next ++ st.unreached) + 2 - st.next_row ≤ n →
      runBands n st ≠ .out := by
  intro n
  induction n with
  | zero =>
    intro es st hInv hm
    rw [runBands]
    split
    · simp
    · rename_i hemp
      exfalso
      obtain ⟨x, hx⟩ : ∃ x, x ∈ st.next := by
        cases hne : st.next with
        | nil => rw [hne] at hemp; simp at hemp
        | cons y ys => exact ⟨y, by simp⟩
      have h1 : st.next_row ≤ edge_bottom x := (hInv.2.2.1 x hx).2
      have h2 : edge_bottom x ≤ maxBottomList (st.next ++ st.unreached) :=
        maxBottomList_bound _ x (by simp [hx])
      omega
  | succ n ih =>
    intro es st hInv hm
    rw [runBands]
    cases hstep : nextBand st with
    | done => simp
    | err => simp
    | yield b st2 =>
      obtain ⟨hInv2, hb1, hrow2, hle, hsub⟩ := nextBand_step es st b st2 hInv hstep
      have hmax2 : maxBottomList (st2.next ++ st2.unreached)
          ≤ maxBottomList (st.next ++ st.unreached) :=
        maxBottomList_mono _ _ hsub
      have hm2 : maxBottomList (st2.next ++ st2.unreached) + 2 - st2.next_row ≤ n := by
        have hrow : st.next_row < st2.next_row := by omega
        omega
      have := ih es st2 hInv2 hm2
      cases hrec : runBands n st2 with
      | ok bs f => simp [hrec]
      | err => simp [hrec]
      | out => exact absurd hrec this

/-- Claim C4: the band iterator terminates. Starting from any state produced
by `from_edges`, running with the explicit fuel bound `stBound` never
exhausts the fuel, and any completed run ends with the `next` heap empty
(the iterator's done condition) having split the original edge multiset into
the edges popped during the sweep (each of which ended above the final row)
and the untouched remainder; edges only ever flow out of the pair of heaps,
never back in. -/
theorem band_iteration_terminates (es : List Edge) (st0 : BandState)
    (h0 : from_edges es = some st0) :
    runBands (stBound st0) st0 ≠ .out ∧
    (∀ fuel bands fin, runBands fuel st0 = .ok bands fin →
      fin.next = [] ∧
      (∃ popped, es.Perm (popped ++ fin.next ++ fin.unreached) ∧
        (∀ e ∈ popped, edge_bottom e < fin.next_row)) ∧
      (∀ e ∈ fin.next ++ fin.unreached, e ∈ st0.next ++ st0.unreached)) := by
  obtain ⟨hInv, _, _, _⟩ := from_edges_inv es st0 h0
  constructor
  · exact runBands_no_out (stBound st0) es st0 hInv (by rw [stBound]; omega)
  · intro fuel bands fin hrun
    obtain ⟨hInvF, hfn, _, hsub⟩ := runBands_ok_props fuel es st0 bands fin hInv hrun
    obtain ⟨_, _, _, _, popped, hperm, hpop⟩ := hInvF
    exact ⟨hfn, ⟨popped, hperm, hpop⟩, hsub⟩

/-- Witness for C4: termination of the square test shape's iteration. -/
theorem band_iteration_terminates_witness :
    runBands (stBound sqState0) sqState0 ≠ .out ∧
    (∀ fuel bands fin, runBands fuel sqState0 = .ok bands fin →
      fin.next = [] ∧
      (∃ popped, sqEdges.Perm (popped ++ fin.next ++ fin.unreached) ∧
        (∀ e ∈ popped, edge_bottom e < fin.next_row)) ∧
      (∀ e ∈ fin.next ++ fin.unreached, e ∈ sqState0.next ++ sqState0.unreached)) :=
  band_iteration_terminates sqEdges sqState0 (by decide)

lemma bandsChain_bounds :
    ∀ (bands : List Band) (r r2 : Nat), bandsChain r bands r2 →
      r ≤ r2 ∧ ∀ b ∈ bands, r ≤ b.rows.1 ∧ b.rows.1 ≤ b.rows.2 ∧ b.rows.2 < r2 := by
  intro bands
  induction bands with
  | nil =>
    intro r r2 h
    rw [bandsChain] at h
    exact ⟨Nat.le_of_eq h, fun b hb => absurd hb (by simp)⟩
  | cons b bs ih =>
    intro r r2 h
    obtain ⟨hb1, hb2, hrest⟩ := h
    obtain ⟨hle, hall⟩ := ih (b.rows.2 + 1) r2 hrest
    refine ⟨by omega, ?_⟩
    intro b2 hb
    rcases List.mem_cons.mp hb with rfl | hb
    · exact ⟨by omega, by omega, by omega⟩
    · have := hall b2 hb
      exact ⟨by omega, by omega, by omega⟩

lemma bandsChain_chain :
    ∀ (bands : List Band) (r r2 : Nat), bandsChain r bands r2 →
      List.Chain' (fun b1 b2 => b2.rows.1 = b1.rows.2 + 1) bands := by
  intro bands
  induction bands with
  | nil => intro r r2 _; simp
  | cons b bs ih =>
    intro r r2 h
    obtain ⟨hb1, hb2, hrest⟩ := h
    cases bs with
    | nil => simp
    | cons b2 bs2 =>
      exact List.chain'_cons.mpr ⟨hrest.1, ih (b.rows.2 + 1) r2 hrest⟩

lemma bandsChain_count :
    ∀ (bands : List Band) (r r2 row : Nat), bandsChain r bands r2 →
      r ≤ row → row < r2 →
      bands.countP (fun b => decide (b.rows.1 ≤ row ∧ row ≤ b.rows.2)) = 1 := by
  intro bands
  induction bands with
  | nil =>
    intro r r2 row h h1 h2
    rw [bandsChain] at h
    omega
  | cons b bs ih =>
    intro r r2 row h h1 h2
    obtain ⟨hb1, hb2, hrest⟩ := h
    by_cases hrow : row ≤ b.rows.2
    · have hpred : (decide (b.rows.1 ≤ row ∧ row ≤ b.rows.2)) = true := by
        simp only [decide_eq_true_eq]
        omega
      have hzero : bs.countP (fun b => decide (b.rows.1 ≤ row ∧ row ≤ b.rows.2)) = 0 := by
        rw [List.countP_eq_zero]
        intro b2 hb
        obtain ⟨_, hall⟩ := bandsChain_bounds bs (b.rows.2 + 1) r2 hrest
        have := hall b2 hb
        simp only [decide_eq_true_eq]
        omega
      rw [List.countP_cons, hzero, hpred]
      simp
    · have hpred : (decide (b.rows.1 ≤ row ∧ row ≤ b.rows.2)) = false := by
        simp only [decide_eq_false_iff_not]
        omega
      rw [List.countP_cons, hpred]
      simpa using ih (b.rows.2 + 1) r2 row hrest (by omega) h2

/-- Claim C1: for a polygon accepted by the edge model, a completed band
iteration that consumed every edge produces bands whose row intervals are
contiguous (each band opens on the row after the previous band's last row),
non-empty hence strictly increasing and non-overlapping, and every row
touched by any edge lies in exactly one band. -/
theorem bands_partition (es : List Edge) (st0 : BandState) (fuel : Nat)
    (bands : List Band) (fin : BandState)
    (h0 : from_edges es = some st0)
    (hrun : runBands fuel st0 = .ok bands fin)
    (hdrained : fin.unreached = []) :
    List.Chain' (fun b1 b2 => b2.rows.1 = b1.rows.2 + 1) bands ∧
    (∀ b ∈ bands, b.rows.1 ≤ b.rows.2) ∧
    (∀ row, (∃ e ∈ es, edge_top e ≤ row ∧ row ≤ edge_bottom e) →
      bands.countP (fun b => decide (b.rows.1 ≤ row ∧ row ≤ b.rows.2)) = 1) := by
  obtain ⟨hInv, hmin, _, _⟩ := from_edges_inv es st0 h0
  obtain ⟨hInvF, hfn, hchain, _⟩ := runBands_ok_props fuel es st0 bands fin hInv hrun
  obtain ⟨_, _, _, _, popped, hperm, hpop⟩ := hInvF
  have hallpopped : ∀ e ∈ es, edge_bottom e < fin.next_row := by
    intro e he
    have : e ∈ popped ++ fin.next ++ fin.unreached := hperm.mem_iff.mp he
    rw [hfn, hdrained] at this
    simp only [List.append_nil] at this
    exact hpop e this
  refine ⟨bandsChain_chain bands st0.next_row fin.next_row hchain, ?_, ?_⟩
  · intro b hb
    exact ((bandsChain_bounds bands st0.next_row fin.next_row hchain).2 b hb).2.1
  · intro row ⟨e, he, htop, hbot⟩
    refine bandsChain_count bands st0.next_row fin.next_row row hchain ?_ ?_
    · exact le_trans (hmin e he) htop
    · exact lt_of_le_of_lt hbot (hallpopped e he)

/-- Witness for C1: the partition property of the square test shape's two
bands. -/
theorem bands_partition_witness :
    List.Chain' (fun b1 b2 => b2.rows.1 = b1.rows.2 + 1) [sqBand1, sqBand2] ∧
    (∀ b ∈ [sqBand1, sqBand2], b.rows.1 ≤ b.rows.2) ∧
    (∀ row, (∃ e ∈ sqEdges, edge_top e ≤ row ∧ row ≤ edge_bottom e) →
      ([sqBand1, sqBand2].countP
        (fun b => decide (b.rows.1 ≤ row ∧ row ≤ b.rows.2))) = 1) :=
  bands_partition sqEdges sqState0 24 [sqBand1, sqBand2] ⟨23, [], []⟩
    (by decide) (by decide) rfl

/-- Witness for C6: the symmetry and emission characterisation applied to
the first band of the square: two new vertices in one run, whose pair is
emitted. -/
theorem new_visibility_symmetric_witness :
    (∀ A ∈ [ActiveRed.mk (12, 10) (10, 21), ActiveRed.mk (12, 20) (10, 21)],
      ∀ B ∈ [ActiveRed.mk (12, 10) (10, 21), ActiveRed.mk (12, 20) (10, 21)],
      (runContains A.visible B.red.2 = true ↔ runContains B.visible A.red.2 = true)) ∧
    (∀ A B : ActiveRed,
      List.Sublist [A, B] [ActiveRed.mk (12, 10) (10, 21), ActiveRed.mk (12, 20) (10, 21)] →
      (((A.red, B.red) ∈ [(((12 : Nat), (10 : Nat)), ((12 : Nat), (20 : Nat)))]) ↔
        runContains A.visible B.red.2 = true)) :=
  new_visibility_symmetric 12 [(10, 21)] [10, 20]
    [ActiveRed.mk (12, 10) (10, 21), ActiveRed.mk (12, 20) (10, 21)]
    [((12, 10), (12, 20))]
    (by decide) (by decide) (by decide) (by decide)

/-! Claim C5: every raw red column is collected exactly twice. -/

lemma insertNat_perm (x : Nat) (l : List Nat) : (insertNat x l).Perm (x :: l) := by
  induction l with
  | nil => rw [insertNat]
  | cons y ys ih =>
    rw [insertNat]
    split
    · exact List.Perm.refl _
    · exact (ih.cons y).trans (List.Perm.swap x y ys)

lemma insertNat_sorted (x : Nat) :
    ∀ l : List Nat, l.Pairwise (fun a b => a ≤ b) →
      (insertNat x l).Pairwise (fun a b => a ≤ b) := by
  intro l
  induction l with
  | nil =>
    intro _
    rw [insertNat]
    simp
  | cons y ys ih =>
    intro h
    rw [List.pairwise_cons] at h
    obtain ⟨hy, hys⟩ := h
    rw [insertNat]
    split
    · rename_i hxy
      rw [List.pairwise_cons]
      constructor
      · intro b hb
        rcases List.mem_cons.mp hb with hb | hb
        · omega
        · have := hy b hb
          omega
      · rw [List.pairwise_cons]
        exact ⟨hy, hys⟩
    · rename_i hxy
      rw [List.pairwise_cons]
      constructor
      · intro b hb
        have hb2 := (insertNat_perm x ys).mem_iff.mp hb
        rcases List.mem_cons.mp hb2 with hb2 | hb2
        · omega
        · exact hy b hb2
      · exact ih hys

lemma foldr_insertNat_perm : ∀ l : List Nat, (l.foldr insertNat []).Perm l := by
  intro l
  induction l with
  | nil => exact List.Perm.refl _
  | cons x xs ih =>
    simp only [List.foldr_cons]
    exact (insertNat_perm x _).trans (ih.cons x)

lemma sortNats_perm (l : List Nat) : (sortNats l).Perm l := foldr_insertNat_perm l

lemma sortNats_sorted (l : List Nat) :
    (sortNats l).Pairwise (fun a b => a ≤ b) := by
  induction l with
  | nil => rw [sortNats]; simp
  | cons x xs ih =>
    have hstep : sortNats (x :: xs) = insertNat x (sortNats xs) := rfl
    rw [hstep]
    exact insertNat_sorted x _ ih

lemma dedupAdj_mem : ∀ (l : List Nat) (x : Nat), x ∈ dedupAdj l ↔ x ∈ l := by
  intro l
  induction l with
  | nil => intro x; rw [dedupAdj]
  | cons a tail ih =>
    intro x
    cases tail with
    | nil => rw [dedupAdj]
    | cons b rest =>
      rw [dedupAdj]
      split
      · rename_i hab
        have hab' : a = b := by simpa using hab
        rw [ih x, hab']
        simp only [List.mem_cons]
        tauto
      · simp only [List.mem_cons, ih x]

lemma dedupAdj_nodup :
    ∀ l : List Nat, l.Pairwise (fun a b => a ≤ b) → (dedupAdj l).Nodup := by
  intro l
  induction l with
  | nil =>
    intro _
    rw [dedupAdj]
    exact List.nodup_nil
  | cons a tail ih =>
    intro h
    cases tail with
    | nil =>
      rw [dedupAdj]
      simp
    | cons b rest =>
      rw [List.pairwise_cons] at h
      obtain ⟨ha, htail⟩ := h
      rw [dedupAdj]
      split
      · exact ih htail
      · rename_i hab
        have hab' : a ≠ b := by simpa using hab
        rw [List.nodup_cons]
        constructor
        · intro hmem
          have hx := (dedupAdj_mem (b :: rest) a).mp hmem
          rcases List.mem_cons.mp hx with h1 | h1
          · exact hab' h1
          · have hb_le := (List.pairwise_cons.mp htail).1 a h1
            have hale : a ≤ b := ha b (List.mem_cons_self b rest)
            omega
        · exact ih htail

lemma list_length_count_sum (l : List Nat) :
    ∑ a ∈ l.toFinset, l.count a = l.length := by
  have h := Multiset.toFinset_sum_count_eq (l : Multiset Nat)
  simpa using h

lemma sorted_counts_two (l : List Nat) (hs : l.Pairwise (fun a b => a ≤ b))
    (hge : ∀ c ∈ l, 2 ≤ l.count c)
    (hlen : (dedupAdj l).length * 2 = l.length) :
    ∀ c ∈ l, l.count c = 2 := by
  have hnd : (dedupAdj l).Nodup := dedupAdj_nodup l hs
  have hfin : (dedupAdj l).toFinset = l.toFinset := by
    apply Finset.ext
    intro a
    rw [List.mem_toFinset, List.mem_toFinset, dedupAdj_mem]
  have hcard : l.toFinset.card = (dedupAdj l).length := by
    rw [← hfin]
    exact List.toFinset_card_of_nodup hnd
  have hsum : ∑ a ∈ l.toFinset, l.count a = l.length := list_length_count_sum l
  have hconst : ∑ a ∈ l.toFinset, 2 = l.length := by
    rw [Finset.sum_const, smul_eq_mul, hcard]
    omega
  have hall : ∀ a ∈ l.toFinset, l.count a = 2 := by
    intro a ha
    by_contra hne
    have hlt : 2 < l.count a :=
      lt_of_le_of_ne (hge a (List.mem_toFinset.mp ha)) (Ne.symm hne)
    have hlt2 : ∑ x ∈ l.toFinset, (2 : Nat) < ∑ x ∈ l.toFinset, l.count x :=
      Finset.sum_lt_sum (fun i hi => hge i (List.mem_toFinset.mp hi)) ⟨a, ha, hlt⟩
    omega
  intro c hc
  exact hall c (List.mem_toFinset.mpr hc)

lemma redContrib_count (t c : Nat) (x : Edge) (a : List Nat)
    (hv : validEdge x = true)
    (hb1 : edge_top x ≤ t) (hb2 : t ≤ edge_bottom x)
    (h : redContrib t x = some a) :
    a.count c = (if x.s = (t, c) then 1 else 0)
      + (if x.e = (t, c) then 1 else 0) := by
  rw [validEdge] at hv
  simp only [Bool.and_eq_true, bne_iff_ne, Bool.or_eq_true, beq_iff_eq] at hv
  obtain ⟨hne, hor⟩ := hv
  rw [edge_top] at hb1
  rw [edge_bottom] at hb2
  rw [redContrib] at h
  split at h
  · rename_i hh
    rw [beq_iff_eq] at hh
    split at h
    · rename_i hht
      rw [beq_iff_eq] at hht
      obtain rfl : [x.s.2, x.e.2] = a := Option.some.inj h
      have het : x.e.1 = t := by omega
      by_cases h1 : x.s.2 = c <;> by_cases h2 : x.e.2 = c <;>
        simp [List.count_cons, Prod.ext_iff, hht, het, h1, h2]
    · simp at h
  · rename_i hh
    have hh' : x.s.1 ≠ x.e.1 := by simpa using hh
    have hveq : x.s.2 = x.e.2 := by tauto
    split at h
    · rename_i hcond
      simp only [Bool.or_eq_true, beq_iff_eq] at hcond
      obtain rfl : [x.s.2] = a := Option.some.inj h
      rcases hcond with hs1 | he1
      · have hne2 : x.e.1 ≠ t := by omega
        by_cases h1 : x.s.2 = c <;>
          simp [List.count_cons, Prod.ext_iff, hs1, hne2, h1]
      · have hne2 : x.s.1 ≠ t := by omega
        by_cases h1 : x.s.2 = c <;>
          simp [List.count_cons, Prod.ext_iff, he1, hne2, hveq, h1] <;> omega
    · rename_i hcond
      simp only [Bool.or_eq_true, beq_iff_eq, not_or] at hcond
      obtain rfl : ([] : List Nat) = a := Option.some.inj h
      simp [Prod.ext_iff, hcond.1, hcond.2]

lemma redsRaw_count (t : Nat) :
    ∀ (l : List Edge) (raw : List Nat),
      (∀ e ∈ l, validEdge e = true) →
      (∀ e ∈ l, edge_top e ≤ t ∧ t ≤ edge_bottom e) →
      redsRaw t l = some raw →
      ∀ c, raw.count c
        = l.countP (fun e => decide (e.s = (t, c)))
          + l.countP (fun e => decide (e.e = (t, c))) := by
  intro l
  induction l with
  | nil =>
    intro raw hv hb h c
    rw [redsRaw] at h
    obtain rfl : ([] : List Nat) = raw := Option.some.inj h
    simp
  | cons x xs ih =>
    intro raw hv hb h c
    rw [redsRaw] at h
    cases hcx : redContrib t x with
    | none => simp [hcx] at h
    | some a =>
      cases hrest : redsRaw t xs with
      | none => simp [hcx, hrest] at h
      | some b =>
        simp only [hcx, hrest] at h
        obtain rfl : a ++ b = raw := Option.some.inj h
        have hx := redContrib_count t c x a (hv x (List.mem_cons_self x xs))
          (hb x (List.mem_cons_self x xs)).1 (hb x (List.mem_cons_self x xs)).2 hcx
        have hxs := ih b (fun e he => hv e (List.mem_cons_of_mem x he))
          (fun e he => hb e (List.mem_cons_of_mem x he)) hrest c
        rw [List.count_append, hx, hxs, List.countP_cons, List.countP_cons]
        simp only [decide_eq_true_eq]
        by_cases h1 : x.s = (t, c) <;> by_cases h2 : x.e = (t, c) <;>
          simp [h1, h2] <;> omega

lemma chain_ends (first : Point) :
    ∀ (xs : List Edge) (prev : Point), chainLoop first prev xs = true →
      prev :: xs.map Edge.e = xs.map Edge.s ++ [first] := by
  intro xs
  induction xs with
  | nil =>
    intro prev h
    rw [chainLoop] at h
    rw [beq_iff_eq] at h
    simp [h]
  | cons x xs ih =>
    intro prev h
    rw [chainLoop] at h
    simp only [Bool.and_eq_true, beq_iff_eq] at h
    obtain ⟨h1, h2⟩ := h
    have hrest := ih x.e h2
    simp only [List.map_cons, List.cons_append, h1]
    rw [hrest]

lemma closed_sources_perm (es : List Edge) (h : isClosedChain es = true) :
    (es.map Edge.s).Perm (es.map Edge.e) := by
  cases es with
  | nil =>
    rw [isClosedChain] at h
    cases h
  | cons x xs =>
    rw [isClosedChain] at h
    have he := chain_ends x.s xs x.e h
    simp only [List.map_cons]
    rw [he]
    exact (List.perm_append_singleton x.s (xs.map Edge.s)).symm

lemma closed_endpoint_count (es : List Edge) (h : isClosedChain es = true)
    (p : Point) :
    es.countP (fun e => decide (e.s = p)) = es.countP (fun e => decide (e.e = p)) := by
  have hp := closed_sources_perm es h
  have h1 : (es.map Edge.s).countP (fun q => decide (q = p))
      = es.countP (fun e => decide (e.s = p)) := by
    rw [List.countP_map]
    rfl
  have h2 : (es.map Edge.e).countP (fun q => decide (q = p))
      = es.countP (fun e => decide (e.e = p)) := by
    rw [List.countP_map]
    rfl
  rw [← h1, ← h2]
  exact hp.countP_eq _

/-- Claim C5: from a state of the band iterator that satisfies the sweep
invariant for a valid closed edge loop, whenever `nextBand` yields a band,
every column in the raw red list collected for the band's top row occurs
exactly twice, so the deduplicated list has exactly half the raw length;
and from a state whose raw red list has a column not occurring exactly
twice, `nextBand` fails. -/
theorem reds_each_twice (es : List Edge) (st : BandState) (raw : List Nat)
    (hval : es.all validEdge = true) (hch : isClosedChain es = true)
    (hinv : InvFor es st)
    (hraw : redsRaw st.next_row st.next = some raw) :
    (∀ b st2, nextBand st = .yield b st2 →
      (∀ c ∈ raw, raw.count c = 2) ∧
        (dedupAdj (sortNats raw)).length * 2 = raw.length) ∧
    ((∃ c ∈ raw, raw.count c ≠ 2) → nextBand st = .err) := by
  obtain ⟨hsn, hsu, hbnd, hun, popped, hperm, hpopped⟩ := hinv
  have hvnext : ∀ e ∈ st.next, validEdge e = true := by
    intro e he
    have hmem : e ∈ es := by
      rw [hperm.mem_iff]
      exact List.mem_append.mpr (Or.inl (List.mem_append.mpr (Or.inr he)))
    exact List.all_eq_true.mp hval e hmem
  have hcount : ∀ c, raw.count c
      = 2 * es.countP (fun e => decide (e.s = (st.next_row, c))) := by
    intro c
    have h1 := redsRaw_count st.next_row st.next raw hvnext hbnd hraw c
    have hsplit_s : es.countP (fun e => decide (e.s = (st.next_row, c)))
        = st.next.countP (fun e => decide (e.s = (st.next_row, c))) := by
      rw [hperm.countP_eq, List.countP_append, List.countP_append]
      have hz1 : popped.countP (fun e => decide (e.s = (st.next_row, c))) = 0 := by
        rw [List.countP_eq_zero]
        intro e he
        have hbot := hpopped e he
        rw [edge_bottom] at hbot
        simp only [decide_eq_true_eq]
        intro hx
        have hfst : e.s.1 = st.next_row := congrArg Prod.fst hx
        omega
      have hz2 : st.unreached.countP (fun e => decide (e.s = (st.next_row, c))) = 0 := by
        rw [List.countP_eq_zero]
        intro e he
        have htop := hun e he
        rw [edge_top] at htop
        simp only [decide_eq_true_eq]
        intro hx
        have hfst : e.s.1 = st.next_row := congrArg Prod.fst hx
        omega
      omega
    have hsplit_e : es.countP (fun e => decide (e.e = (st.next_row, c)))
        = st.next.countP (fun e => decide (e.e = (st.next_row, c))) := by
      rw [hperm.countP_eq, List.countP_append, List.countP_append]
      have hz1 : popped.countP (fun e => decide (e.e = (st.next_row, c))) = 0 := by
        rw [List.countP_eq_zero]
        intro e he
        have hbot := hpopped e he
        rw [edge_bottom] at hbot
        simp only [decide_eq_true_eq]
        intro hx
        have hfst : e.e.1 = st.next_row := congrArg Prod.fst hx
        omega
      have hz2 : st.unreached.countP (fun e => decide (e.e = (st.next_row, c))) = 0 := by
        rw [List.countP_eq_zero]
        intro e he
        have htop := hun e he
        rw [edge_top] at htop
        simp only [decide_eq_true_eq]
        intro hx
        have hfst : e.e.1 = st.next_row := congrArg Prod.fst hx
        omega
      omega
    have hclosed := closed_endpoint_count es hch (st.next_row, c)
    omega
  have hge : ∀ c ∈ raw, 2 ≤ raw.count c := by
    intro c hc
    have h1 : 0 < raw.count c := List.count_pos_iff.mpr hc
    have h2 := hcount c
    omega
  have hkey : (dedupAdj (sortNats raw)).length * 2 = raw.length →
      ∀ c ∈ raw, raw.count c = 2 := by
    intro hlen c hc
    have hperm2 : (sortNats raw).Perm raw := sortNats_perm raw
    have hlen2 : (dedupAdj (sortNats raw)).length * 2 = (sortNats raw).length := by
      rw [hperm2.length_eq]
      exact hlen
    have hge2 : ∀ d ∈ sortNats raw, 2 ≤ (sortNats raw).count d := by
      intro d hd
      rw [hperm2.count_eq d]
      exact hge d (hperm2.subset hd)
    have hall := sorted_counts_two (sortNats raw) (sortNats_sorted raw) hge2 hlen2
    have hc2 : c ∈ sortNats raw := hperm2.mem_iff.mpr hc
    have hres := hall c hc2
    rw [hperm2.count_eq c] at hres
    exact hres
  constructor
  · intro b st2 hy
    rw [nextBand] at hy
    split at hy
    · exact absurd hy (by simp)
    · simp only [hraw] at hy
      split at hy
      · rename_i hchk
        rw [beq_iff_eq] at hchk
        have hlen : (dedupAdj (sortNats raw)).length * 2 = raw.length := by
          rw [(sortNats_perm raw).length_eq] at hchk
          exact hchk
        exact ⟨hkey hlen, hlen⟩
      · exact absurd hy (by simp)
  · rintro ⟨c, hc, hcne⟩
    have hnonempty : ¬ st.next.isEmpty = true := by
      intro hemp
      rw [List.isEmpty_iff] at hemp
      rw [hemp, redsRaw] at hraw
      obtain rfl : ([] : List Nat) = raw := Option.some.inj hraw
      exact absurd hc (List.not_mem_nil c)
    have hchkf : ((dedupAdj (sortNats raw)).length * 2 == (sortNats raw).length)
        = false := by
      rw [beq_eq_false_iff_ne]
      intro hlen2
      have hlen : (dedupAdj (sortNats raw)).length * 2 = raw.length := by
        rw [(sortNats_perm raw).length_eq] at hlen2
        exact hlen2
      exact hcne (hkey hlen c hc)
    rw [nextBand, if_neg hnonempty]
    simp [hraw, hchkf]

/-- Witness for C5: the square test shape's first step collects the raw red
list `[10, 20, 10, 20]`, in which column 10 occurs exactly twice and the
deduplicated list has exactly half the raw length. -/
theorem reds_each_twice_witness :
    ([10, 20, 10, 20] : List Nat).count 10 = 2 ∧
      (dedupAdj (sortNats [10, 20, 10, 20])).length * 2
        = ([10, 20, 10, 20] : List Nat).length := by
  have h := reds_each_twice sqEdges sqState0 [10, 20, 10, 20] (by decide) (by decide)
    ⟨by decide, by decide, by decide, by decide, [], by decide, by decide⟩ (by decide)
  have h2 := h.1 sqBand1 sqState1 (by decide)
  exact ⟨h2.1 10 (by decide), h2.2⟩

/-! Claim C9: each unordered pair of vertices is emitted at most once. -/

lemma cullOne_red :
    ∀ (runs : List (Nat × Nat)) (a : ActiveRed) (runs2 : List (Nat × Nat))
      (a2 : ActiveRed), cullOne runs a = (runs2, some a2) → a2.red = a.red := by
  intro runs
  induction runs with
  | nil =>
    intro a runs2 a2 h
    simp [cullOne] at h
  | cons front rest ih =>
    intro a runs2 a2 h
    rw [cullOne] at h
    split at h
    · split at h
      · cases hint : intersectRun a.visible front with
        | some rem =>
          simp only [hint, Prod.mk.injEq, Option.some.injEq] at h
          rw [← h.2]
        | none =>
          simp only [hint] at h
          simp at h
      · simp at h
    · exact ih a runs2 a2 h

lemma cull_red_sublist :
    ∀ (l : List ActiveRed) (runs : List (Nat × Nat)),
      ((cull runs l).map (fun a => a.red)).Sublist (l.map (fun a => a.red)) := by
  intro l
  induction l with
  | nil =>
    intro runs
    simp [cull]
  | cons a rest ih =>
    intro runs
    rw [cull]
    rcases hco : cullOne runs a with ⟨runs2, oa⟩
    cases oa with
    | some a2 =>
      simp only [hco, List.map_cons]
      rw [cullOne_red runs a runs2 a2 hco]
      exact (ih runs2).cons₂ a.red
    | none =>
      simp only [hco, List.map_cons]
      exact (ih runs2).cons a.red

lemma oldNewOne_shape (a : ActiveRed) :
    ∀ (nw : List ActiveRed) (ps : List (Point × Point)),
      oldNewOne a nw = some ps →
      ps = (nw.filter (fun b => runContains a.visible b.red.2)).map
        (fun b => (a.red, b.red)) := by
  intro nw
  induction nw with
  | nil =>
    intro ps h
    simp only [oldNewOne, Option.some.injEq] at h
    subst h
    simp
  | cons b rest ih =>
    intro ps h
    rw [oldNewOne] at h
    split at h
    · exact absurd h (by simp)
    · cases hm : oldNewOne a rest with
      | none => rw [hm] at h; exact absurd h (by simp)
      | some more =>
        rw [hm] at h
        simp only [Option.some.injEq] at h
        subst h
        rw [List.filter_cons]
        by_cases hv : runContains a.visible b.red.2 = true
        · simp [hv, ih more hm]
        · simp [hv, ih more hm]

lemma newNewOne_shape (a : ActiveRed) :
    ∀ (rest : List ActiveRed) (ps : List (Point × Point)),
      newNewOne a rest = some ps →
      ps = (rest.filter (fun b => runContains a.visible b.red.2)).map
        (fun b => (a.red, b.red)) := by
  intro rest
  induction rest with
  | nil =>
    intro ps h
    simp only [newNewOne, Option.some.injEq] at h
    subst h
    simp
  | cons b more ih =>
    intro ps h
    rw [newNewOne] at h
    split at h
    · exact absurd h (by simp)
    · cases hm : newNewOne a more with
      | none => rw [hm] at h; exact absurd h (by simp)
      | some tail =>
        rw [hm] at h
        simp only [Option.some.injEq] at h
        subst h
        rw [List.filter_cons]
        by_cases hv : runContains a.visible b.red.2 = true
        · simp [hv, ih tail hm]
        · simp [hv, ih tail hm]

lemma oldNewPairs_pairs (t : Nat) :
    ∀ (olds nw : List ActiveRed) (ps : List (Point × Point)),
      oldNewPairs olds nw = some ps →
      (olds.map (fun a => a.red)).Nodup →
      (nw.map (fun a => a.red)).Nodup →
      (∀ a ∈ olds, a.red.1 < t) →
      (∀ b ∈ nw, b.red.1 = t) →
      ps.Pairwise (fun p q => ¬ samePair p q) ∧
      ∀ p ∈ ps, p.1 ∈ olds.map (fun a => a.red) ∧ p.2 ∈ nw.map (fun a => a.red) := by
  intro olds
  induction olds with
  | nil =>
    intro nw ps h _ _ _ _
    simp only [oldNewPairs, Option.some.injEq] at h
    subst h
    simp
  | cons a olds ih =>
    intro nw ps h hndo hndn hrowo hrown
    rw [oldNewPairs] at h
    cases h1 : oldNewOne a nw with
    | none => rw [h1] at h; exact absurd h (by simp)
    | some first =>
      rw [h1] at h
      cases h2 : oldNewPairs olds nw with
      | none => rw [h2] at h; exact absurd h (by simp)
      | some rest =>
        rw [h2] at h
        simp only [Option.some.injEq] at h
        subst h
        have hshape := oldNewOne_shape a nw first h1
        have hfirstmem : ∀ p ∈ first, p.1 = a.red ∧ p.2 ∈ nw.map (fun x => x.red) := by
          intro p hp
          rw [hshape] at hp
          obtain ⟨b, hb, rfl⟩ := List.mem_map.mp hp
          exact ⟨rfl, List.mem_map.mpr ⟨b, (List.mem_filter.mp hb).1, rfl⟩⟩
        rw [List.map_cons, List.nodup_cons] at hndo
        obtain ⟨hanotin, hndo2⟩ := hndo
        obtain ⟨ihp, ihm⟩ := ih nw rest h2 hndo2 hndn
          (fun x hx => hrowo x (List.mem_cons_of_mem a hx)) hrown
        have harow : a.red.1 < t := hrowo a (List.mem_cons_self a olds)
        constructor
        · rw [List.pairwise_append]
          refine ⟨?_, ihp, ?_⟩
          · rw [hshape, List.pairwise_map]
            have hnwpair : nw.Pairwise (fun x y => x.red ≠ y.red) :=
              List.pairwise_map.mp hndn
            have hfil := hnwpair.filter (fun x => runContains a.visible x.red.2)
            refine List.Pairwise.imp_of_mem ?_ hfil
            intro b1 b2 hb1 hb2 hne hsp
            have hb2n : b2 ∈ nw := (List.mem_filter.mp hb2).1
            rcases hsp with ⟨_, he2⟩ | ⟨he1, _⟩
            · exact hne he2
            · have h1r : (a.red).1 = (b2.red).1 := congrArg Prod.fst he1
              have h2r := hrown b2 hb2n
              omega
          · intro p hp q hq hsp
            obtain ⟨hp1, hp2⟩ := hfirstmem p hp
            obtain ⟨hq1, hq2⟩ := ihm q hq
            have hq2row : q.2.1 = t := by
              obtain ⟨b2, hb2, hbe⟩ := List.mem_map.mp hq2
              rw [← hbe]
              exact hrown b2 hb2
            rcases hsp with ⟨he1, _⟩ | ⟨he1, _⟩
            · rw [hp1] at he1
              rw [he1] at hanotin
              exact hanotin hq1
            · have h1r : p.1.1 = q.2.1 := congrArg Prod.fst he1
              rw [hp1] at h1r
              omega
        · intro p hp
          rcases List.mem_append.mp hp with hp | hp
          · obtain ⟨hp1, hp2⟩ := hfirstmem p hp
            rw [List.map_cons]
            exact ⟨by rw [hp1]; exact List.mem_cons_self _ _, hp2⟩
          · obtain ⟨hq1, hq2⟩ := ihm p hp
            rw [List.map_cons]
            exact ⟨List.mem_cons_of_mem _ hq1, hq2⟩

lemma newNewPairs_pairs :
    ∀ (nw : List ActiveRed) (ps : List (Point × Point)),
      newNewPairs nw = some ps →
      (nw.map (fun a => a.red)).Nodup →
      ps.Pairwise (fun p q => ¬ samePair p q) ∧
      ∀ p ∈ ps, p.1 ∈ nw.map (fun a => a.red) ∧ p.2 ∈ nw.map (fun a => a.red) := by
  intro nw
  induction nw with
  | nil =>
    intro ps h _
    simp only [newNewPairs, Option.some.injEq] at h
    subst h
    simp
  | cons a rest ih =>
    intro ps h hnd
    rw [newNewPairs] at h
    cases h1 : newNewOne a rest with
    | none => rw [h1] at h; exact absurd h (by simp)
    | some first =>
      rw [h1] at h
      cases h2 : newNewPairs rest with
      | none => rw [h2] at h; exact absurd h (by simp)
      | some more =>
        rw [h2] at h
        simp only [Option.some.injEq] at h
        subst h
        have hshape := newNewOne_shape a rest first h1
        have hfirstmem : ∀ p ∈ first, p.1 = a.red ∧ p.2 ∈ rest.map (fun x => x.red) := by
          intro p hp
          rw [hshape] at hp
          obtain ⟨b, hb, rfl⟩ := List.mem_map.mp hp
          exact ⟨rfl, List.mem_map.mpr ⟨b, (List.mem_filter.mp hb).1, rfl⟩⟩
        rw [List.map_cons, List.nodup_cons] at hnd
        obtain ⟨hanotin, hnd2⟩ := hnd
        obtain ⟨ihp, ihm⟩ := ih more h2 hnd2
        constructor
        · rw [List.pairwise_append]
          refine ⟨?_, ihp, ?_⟩
          · rw [hshape, List.pairwise_map]
            have hrestpair : rest.Pairwise (fun x y => x.red ≠ y.red) :=
              List.pairwise_map.mp hnd2
            have hfil := hrestpair.filter (fun x => runContains a.visible x.red.2)
            refine List.Pairwise.imp_of_mem ?_ hfil
            intro b1 b2 hb1 hb2 hne hsp
            have hb2n : b2 ∈ rest := (List.mem_filter.mp hb2).1
            rcases hsp with ⟨_, he2⟩ | ⟨he1, _⟩
            · exact hne he2
            · have he1b : a.red = b2.red := he1
              rw [he1b] at hanotin
              exact hanotin (List.mem_map.mpr ⟨b2, hb2n, rfl⟩)
          · intro p hp q hq hsp
            obtain ⟨hp1, hp2⟩ := hfirstmem p hp
            obtain ⟨hq1, hq2⟩ := ihm q hq
            rcases hsp with ⟨he1, _⟩ | ⟨he1, _⟩
            · rw [hp1] at he1
              rw [he1] at hanotin
              exact hanotin hq1
            · rw [hp1] at he1
              rw [he1] at hanotin
              exact hanotin hq2
        · intro p hp
          rcases List.mem_append.mp hp with hp | hp
          · obtain ⟨hp1, hp2⟩ := hfirstmem p hp
            rw [List.map_cons]
            exact ⟨by rw [hp1]; exact List.mem_cons_self _ _,
              List.mem_cons_of_mem _ hp2⟩
          · obtain ⟨hq1, hq2⟩ := ihm p hp
            rw [List.map_cons]
            exact ⟨List.mem_cons_of_mem _ hq1, List.mem_cons_of_mem _ hq2⟩

lemma insertByCol_perm (x : ActiveRed) (l : List ActiveRed) :
    (insertByCol x l).Perm (x :: l) := by
  induction l with
  | nil => rw [insertByCol]
  | cons y ys ih =>
    rw [insertByCol]
    split
    · exact List.Perm.refl _
    · exact (ih.cons y).trans (List.Perm.swap x y ys)

lemma sortByCol_perm : ∀ l : List ActiveRed, (sortByCol l).Perm l := by
  intro l
  induction l with
  | nil => exact List.Perm.refl _
  | cons x xs ih =>
    have hstep : sortByCol (x :: xs) = insertByCol x (sortByCol xs) := rfl
    rw [hstep]
    exact (insertByCol_perm x _).trans (ih.cons x)

lemma nextBand_yield_reds (st : BandState) (b : Band) (st2 : BandState)
    (hy : nextBand st = .yield b st2) : b.reds.Nodup := by
  rw [nextBand] at hy
  split at hy
  · exact absurd hy (by simp)
  · cases hr : redsRaw st.next_row st.next with
    | none => simp [hr] at hy
    | some raw =>
      simp only [hr] at hy
      split at hy
      · cases hsc : scanEdges st.next_row (sortScan st.next) with
        | none => simp [hsc] at hy
        | some pr =>
          rcases pr with ⟨runs, flag⟩
          simp only [hsc] at hy
          cases hpd : popDone st.next_row st.next with
          | none => simp [hpd] at hy
          | some nx1 =>
            simp only [hpd] at hy
            split at hy
            · obtain ⟨hb, _⟩ := Step.yield.inj hy
              rw [← hb]
              exact dedupAdj_nodup _ (sortNats_sorted raw)
            · exact absurd hy (by simp)
      · exact absurd hy (by simp)

lemma runBands_reds_nodup :
    ∀ (fuel : Nat) (st : BandState) (bands : List Band) (fin : BandState),
      runBands fuel st = .ok bands fin → ∀ b ∈ bands, b.reds.Nodup := by
  intro fuel
  induction fuel with
  | zero =>
    intro st bands fin h
    rw [runBands] at h
    split at h
    · obtain ⟨rfl, rfl⟩ := RunOut.ok.inj h
      simp
    · exact absurd h (by simp)
  | succ n ih =>
    intro st bands fin h
    rw [runBands] at h
    cases hstep : nextBand st with
    | done =>
      rw [hstep] at h
      obtain ⟨rfl, rfl⟩ := RunOut.ok.inj h
      simp
    | err => rw [hstep] at h; exact absurd h (by simp)
    | yield b st2 =>
      simp only [hstep] at h
      cases hrec : runBands n st2 with
      | ok bs f =>
        simp only [hrec] at h
        obtain ⟨hb2, hf⟩ := RunOut.ok.inj h
        subst hb2
        subst hf
        intro x hx
        rcases List.mem_cons.mp hx with rfl | hx
        · exact nextBand_yield_reds st x st2 hstep
        · exact ih st2 bs f hrec x hx
      | err => simp only [hrec] at h; exact absurd h (by simp)
      | out => simp only [hrec] at h; exact absurd h (by simp)

lemma processBand_pairs (active : List ActiveRed) (b : Band)
    (ps : List (Point × Point)) (active2 : List ActiveRed)
    (hnd : (active.map (fun a => a.red)).Nodup)
    (hrow : ∀ a ∈ active, a.red.1 < b.rows.1)
    (hreds : b.reds.Nodup)
    (h : processBand active b = some (ps, active2)) :
    ps.Pairwise (fun p q => ¬ samePair p q) ∧
    (∀ p ∈ ps, p.1.1 ≤ b.rows.1 ∧ p.2.1 = b.rows.1) ∧
    (active2.map (fun a => a.red)).Nodup ∧
    (∀ a ∈ active2, a.red.1 ≤ b.rows.1) := by
  rw [processBand] at h
  cases ha : absorb b.rows.1 b.runs b.reds with
  | none => simp [ha] at h
  | some nw =>
    simp only [ha] at h
    cases h1 : oldNewPairs (cull b.runs active) nw with
    | none => rw [h1] at h; exact absurd h (by simp)
    | some p1 =>
      rw [h1] at h
      cases h2 : newNewPairs nw with
      | none => rw [h2] at h; exact absurd h (by simp)
      | some p2 =>
        rw [h2] at h
        simp only [Option.some.injEq, Prod.mk.injEq] at h
        obtain ⟨hps, hact⟩ := h
        subst hps
        subst hact
        have hculled_sub := cull_red_sublist active b.runs
        have hndc : ((cull b.runs active).map (fun a => a.red)).Nodup :=
          List.Nodup.sublist hculled_sub hnd
        have hrowc : ∀ x ∈ cull b.runs active, x.red.1 < b.rows.1 := by
          intro x hx
          have hxin : x.red ∈ (cull b.runs active).map (fun a => a.red) :=
            List.mem_map.mpr ⟨x, hx, rfl⟩
          obtain ⟨y, hy, hyx⟩ := List.mem_map.mp (hculled_sub.subset hxin)
          rw [← hyx]
          exact hrow y hy
        obtain ⟨hmap, _⟩ := absorb_results b.rows.1 b.reds b.runs nw ha
        have hndn : (nw.map (fun x => x.red)).Nodup := by
          rw [hmap]
          refine List.Nodup.map ?_ hreds
          intro c1 c2 hc
          exact congrArg Prod.snd hc
        have hrown : ∀ y ∈ nw, y.red.1 = b.rows.1 := by
          intro y hy
          have hyin : y.red ∈ nw.map (fun x => x.red) := List.mem_map.mpr ⟨y, hy, rfl⟩
          rw [hmap] at hyin
          obtain ⟨c, hc, hce⟩ := List.mem_map.mp hyin
          rw [← hce]
        obtain ⟨h1p, h1m⟩ := oldNewPairs_pairs b.rows.1 (cull b.runs active) nw p1 h1
          hndc hndn hrowc hrown
        obtain ⟨h2p, h2m⟩ := newNewPairs_pairs nw p2 h2 hndn
        have hrow_c : ∀ z ∈ (cull b.runs active).map (fun a => a.red),
            z.1 < b.rows.1 := by
          intro z hz
          obtain ⟨y, hy, rfl⟩ := List.mem_map.mp hz
          exact hrowc y hy
        have hrow_n : ∀ z ∈ nw.map (fun a => a.red), z.1 = b.rows.1 := by
          intro z hz
          obtain ⟨y, hy, rfl⟩ := List.mem_map.mp hz
          exact hrown y hy
        refine ⟨?_, ?_, ?_, ?_⟩
        · rw [List.pairwise_append]
          refine ⟨h1p, h2p, ?_⟩
          intro p hp q hq hsp
          obtain ⟨hp1, hp2⟩ := h1m p hp
          obtain ⟨hq1, hq2⟩ := h2m q hq
          have hc1 := hrow_c p.1 hp1
          have hn1 := hrow_n q.1 hq1
          have hn2 := hrow_n q.2 hq2
          rcases hsp with ⟨he1, _⟩ | ⟨he1, _⟩
          · have := congrArg Prod.fst he1
            omega
          · have := congrArg Prod.fst he1
            omega
        · intro p hp
          rcases List.mem_append.mp hp with hp | hp
          · obtain ⟨hp1, hp2⟩ := h1m p hp
            exact ⟨le_of_lt (hrow_c p.1 hp1), hrow_n p.2 hp2⟩
          · obtain ⟨hq1, hq2⟩ := h2m p hp
            exact ⟨le_of_eq (hrow_n p.1 hq1), hrow_n p.2 hq2⟩
        · have hperm := (sortByCol_perm (cull b.runs active ++ nw)).map
            (fun a => a.red)
          rw [hperm.nodup_iff, List.map_append, List.nodup_append]
          refine ⟨hndc, hndn, ?_⟩
          intro z hz1 hz2
          have := hrow_c z hz1
          have := hrow_n z hz2
          omega
        · intro a ha
          have hin := (sortByCol_perm (cull b.runs active ++ nw)).subset ha
          rcases List.mem_append.mp hin with hin | hin
          · exact le_of_lt (hrowc a hin)
          · exact le_of_eq (hrown a hin)

lemma runTracker_pairs :
    ∀ (bands : List Band) (active : List ActiveRed) (r r2 : Nat)
      (ps : List (Point × Point)),
      bandsChain r bands r2 →
      (∀ b ∈ bands, b.reds.Nodup) →
      (active.map (fun a => a.red)).Nodup →
      (∀ a ∈ active, a.red.1 < r) →
      runTracker active bands = some ps →
      ps.Pairwise (fun p q => ¬ samePair p q) ∧
      ∀ p ∈ ps, r ≤ p.2.1 ∧ p.1.1 ≤ p.2.1 := by
  intro bands
  induction bands with
  | nil =>
    intro active r r2 ps hch hrn hnd hrow h
    simp only [runTracker, Option.some.injEq] at h
    subst h
    simp
  | cons b bs ih =>
    intro active r r2 ps hch hrn hnd hrow h
    obtain ⟨hb1, hb2, hrest⟩ := hch
    rw [runTracker] at h
    cases hp : processBand active b with
    | none => rw [hp] at h; exact absurd h (by simp)
    | some pr =>
      rcases pr with ⟨psb, active2⟩
      simp only [hp] at h
      cases hr : runTracker active2 bs with
      | none => rw [hr] at h; exact absurd h (by simp)
      | some more =>
        rw [hr] at h
        simp only [Option.some.injEq] at h
        subst h
        have hrowb : ∀ a ∈ active, a.red.1 < b.rows.1 := by
          intro a ha
          have := hrow a ha
          omega
        obtain ⟨hpb, hmemb, hnd2, hrow2⟩ := processBand_pairs active b psb active2
          hnd hrowb (hrn b (List.mem_cons_self b bs)) hp
        have hrow3 : ∀ a ∈ active2, a.red.1 < b.rows.2 + 1 := by
          intro a ha
          have := hrow2 a ha
          omega
        obtain ⟨ihp, ihm⟩ := ih active2 (b.rows.2 + 1) r2 more hrest
          (fun x hx => hrn x (List.mem_cons_of_mem b hx)) hnd2 hrow3 hr
        constructor
        · rw [List.pairwise_append]
          refine ⟨hpb, ihp, ?_⟩
          intro p hp2 q hq2 hsp
          obtain ⟨hp1, hp2b⟩ := hmemb p hp2
          obtain ⟨hq1, hq2b⟩ := ihm q hq2
          rcases hsp with ⟨_, he2⟩ | ⟨he1, _⟩
          · have := congrArg Prod.fst he2
            omega
          · have := congrArg Prod.fst he1
            omega
        · intro p hp2
          rcases List.mem_append.mp hp2 with hp2 | hp2
          · obtain ⟨h1, h2⟩ := hmemb p hp2
            constructor
            · omega
            · omega
          · obtain ⟨h1, h2⟩ := ihm p hp2
            constructor
            · omega
            · exact h2

/-- Claim C9: the rectangle-candidate enumeration emits every unordered pair
of vertex positions at most once: in the emitted list, no two entries name
the same unordered pair, in either order. -/
theorem pairs_emitted_once (red : List Point) (ps : List (Point × Point))
    (h : rectanglePairs red = some ps) :
    ps.Pairwise (fun p q => ¬ samePair p q) := by
  rw [rectanglePairs] at h
  cases he : problemEdges red with
  | none => simp [he] at h
  | some es =>
    simp only [he] at h
    cases hf : from_edges es with
    | none => simp [hf] at h
    | some st =>
      simp only [hf] at h
      cases hrb : runBands (stBound st) st with
      | ok bands fin =>
        simp only [hrb] at h
        obtain ⟨hInv, _, _, _⟩ := from_edges_inv es st hf
        obtain ⟨_, _, hchain, _⟩ :=
          runBands_ok_props (stBound st) es st bands fin hInv hrb
        have hrn := runBands_reds_nodup (stBound st) st bands fin hrb
        have hres := runTracker_pairs bands [] st.next_row fin.next_row ps hchain
          hrn (by simp) (by simp) h
        exact hres.1
      | err => simp [hrb] at h
      | out => simp [hrb] at h

/-- Witness for C9: the six pairs emitted for the square test shape name six
distinct unordered pairs. -/
theorem pairs_emitted_once_witness :
    ([(((12 : Nat), (10 : Nat)), ((12 : Nat), (20 : Nat))),
      ((12, 10), (22, 10)), ((12, 10), (22, 20)), ((12, 20), (22, 10)),
      ((12, 20), (22, 20)), ((22, 10), (22, 20))] :
        List (Point × Point)).Pairwise (fun p q => ¬ samePair p q) :=
  pairs_emitted_once sqVertices
    [((12, 10), (12, 20)), ((12, 10), (22, 10)), ((12, 10), (22, 20)),
      ((12, 20), (22, 10)), ((12, 20), (22, 20)), ((22, 10), (22, 20))]
    (by decide)

end Day9
